import Mathlib

/-!
# Verification of the runecho IR core against its specification

This file is a shallow embedding, in Lean 4, of the deterministic
source-tree fingerprinting pipeline of the `runecho` repository:

* the shallow JavaScript/TypeScript symbol extractor
  (`internal/parser`, regex based),
* the content hasher and root-fingerprint computation
  (`internal/ir`, SHA-256),
* the path normalizer and the tree walker / generator
  (`internal/ir/generator.go`),
* the deterministic JSON serializer / storage layer
  (`internal/ir`, `MarshalJSON` / `UnmarshalJSON` / `Save` / `Load`).

Pure Go functions become Lean functions; `error` returning code becomes
`Except`; Go byte strings become `String` / `List Char` / `List Nat`;
Go maps become association lists together with explicit no-duplicate-key
hypotheses.  Behavior of external libraries used by the code
(`regexp`, `golang.org/x/text/unicode/norm`, `encoding/json`,
`path/filepath`) is modelled explicitly; each such model is marked in
its doc comment.
-/

namespace RunEcho

/-! ## Character classes of the Go regular expressions

Go's `regexp` (RE2), without the Unicode flag, uses the ASCII classes
`\w = [0-9A-Za-z_]` and `\s = [\t\n\f\r ]`. -/

/-- RE2 `\w`: ASCII letters, digits and underscore. -/
def isWordChar (c : Char) : Bool := c.isAlphanum || c = '_'

/-- RE2 `\s`: the ASCII whitespace class `[\t\n\f\r ]`. -/
def isSpaceRE (c : Char) : Bool :=
  c = ' ' || c = '\t' || c = '\n' || c = '\x0c' || c = '\r'

/-- The class `['"]` (single or double quote). -/
def isQuote (c : Char) : Bool := c = '\'' || c = '"'

/-- The negated class `[^'"]`. -/
def notQuote (c : Char) : Bool := !(c = '\'' || c = '"')

/-- The negated class `[^)]`. -/
def notCloseParen (c : Char) : Bool := !(c = ')')

/-- The negated class `[^}]`. -/
def notCloseBrace (c : Char) : Bool := !(c = '\x7d')

/-- The class `[\w\s{},*]` used inside the ESM import pattern. -/
def isImportInner (c : Char) : Bool :=
  isWordChar c || isSpaceRE c || c = '\x7b' || c = '\x7d' || c = ',' || c = '*'

/-! ## A small backtracking regular-expression engine

The nine patterns in `internal/parser` only use: literal strings,
single-character classes, concatenation, alternation, greedy `*`, `+`
and `?` over character classes, one capturing group per pattern (always
a greedy `+` over a class), and the `^` anchor (no multiline flag, so it
means start of text).  The engine below implements exactly this fragment
with Perl-style leftmost-first backtracking semantics, which is what
RE2's `FindAllStringSubmatch` produces for these patterns. -/

/-- Abstract syntax of the regular-expression fragment used by the parser. -/
inductive RE where
  /-- a literal string -/
  | strC  : List Char → RE
  /-- a single-character class -/
  | cls   : (Char → Bool) → RE
  /-- concatenation -/
  | seq   : RE → RE → RE
  /-- alternation, left branch preferred -/
  | alt   : RE → RE → RE
  /-- greedy `*` over a character class -/
  | starC : (Char → Bool) → RE
  /-- greedy `+` over a character class -/
  | plusC : (Char → Bool) → RE
  /-- greedy `?` -/
  | optR  : RE → RE
  /-- the (single) capturing group: greedy `+` over a class -/
  | grpP  : (Char → Bool) → RE
  /-- the `^` anchor (start of text) -/
  | bol   : RE

/-- A capture: the text of group 1, if the group has matched. -/
abbrev Cap := Option (List Char)

/-- Result of a match attempt: the capture and the unconsumed suffix. -/
abbrev MRes := Option (Cap × List Char)

/-- Greedy Kleene star over a character class, in continuation-passing
style: consume as many `p`-characters as possible, backtracking one
character at a time when the continuation fails. -/
def starAux (p : Char → Bool) (k : List Char → Bool → Cap → MRes) :
    List Char → Bool → Cap → MRes
  | [], st, cap => k [] st cap
  | c :: rest, st, cap =>
    if p c then
      match starAux p k rest false cap with
      | some r => some r
      | none => k (c :: rest) st cap
    else k (c :: rest) st cap

/-- Greedy capture of one-or-more `p`-characters, with backtracking;
`acc` holds the reversed characters captured so far, and the
continuation receives the capture and the unconsumed suffix. -/
def grpAux (p : Char → Bool) (k : List Char → List Char → MRes) (acc : List Char) :
    List Char → MRes
  | [] => k acc.reverse []
  | c :: rest =>
    if p c then
      match grpAux p k (c :: acc) rest with
      | some r => some r
      | none => k acc.reverse (c :: rest)
    else k acc.reverse (c :: rest)

/-- Backtracking matcher.  `st` records whether the current position is
the start of the text (for `^`); the continuation receives the
unconsumed input, the updated `st` and the capture. -/
def reMatch : RE → List Char → Bool → Cap → (List Char → Bool → Cap → MRes) → MRes
  | .strC lits, cs, st, cap, k =>
    if lits.isPrefixOf cs then k (cs.drop lits.length) (st && lits.isEmpty) cap else none
  | .cls p, cs, _, cap, k =>
    match cs with
    | [] => none
    | c :: rest => if p c then k rest false cap else none
  | .seq r1 r2, cs, st, cap, k =>
    reMatch r1 cs st cap (fun cs2 st2 cap2 => reMatch r2 cs2 st2 cap2 k)
  | .alt r1 r2, cs, st, cap, k =>
    match reMatch r1 cs st cap k with
    | some r => some r
    | none => reMatch r2 cs st cap k
  | .starC p, cs, st, cap, k => starAux p k cs st cap
  | .plusC p, cs, _, cap, k =>
    match cs with
    | [] => none
    | c :: rest => if p c then starAux p k rest false cap else none
  | .optR r, cs, st, cap, k =>
    match reMatch r cs st cap k with
    | some r2 => some r2
    | none => k cs st cap
  | .grpP p, cs, _, _, k =>
    match cs with
    | [] => none
    | c :: rest =>
      if p c then grpAux p (fun capd rest2 => k rest2 false (some capd)) [c] rest
      else none
  | .bol, cs, st, cap, k => if st then k cs st cap else none

/-- Try to match `r` at the current position; on success return the
capture of group 1 and the unconsumed suffix. -/
def matchHere (r : RE) (cs : List Char) (st : Bool) : MRes :=
  reMatch r cs st none (fun rest _ cap => some (cap, rest))

/-- `FindAllStringSubmatch(…, -1)` restricted to group 1: scan left to
right, at each position take the backtracking engine's first match,
then continue after the matched text (non-overlapping); on an empty
match advance by one character.  `fuel` bounds the number of scan
steps; `input.length + 1` always suffices because every step either
consumes at least one character or ends the scan. -/
def findAllAux (r : RE) : Nat → List Char → Bool → List (List Char)
  | 0, _, _ => []
  | fuel+1, cs, st =>
    match matchHere r cs st with
    | some (cap, rest) =>
      let capList := match cap with | some cd => [cd] | none => []
      let rest2 := if rest.length = cs.length then cs.drop 1 else rest
      capList ++ findAllAux r fuel rest2 false
    | none =>
      match cs with
      | [] => []
      | _ :: rest => findAllAux r fuel rest false

/-- All group-1 captures of `r` in `s`, leftmost first. -/
def findAllCaptures (r : RE) (s : String) : List String :=
  (findAllAux r (s.data.length + 1) s.data true).map (fun cd => String.mk cd)

/-- A literal-string atom. -/
def lit (s : String) : RE := .strC s.data

/-- Right-nested concatenation of a list of atoms. -/
def seqL : List RE → RE
  | [] => .strC []
  | [r] => r
  | r :: rs => .seq r (seqL rs)

namespace parser

/-! ## The nine patterns of `internal/parser` (`part_004`) -/

/-- Go: `import\s+(?:[\w\s{},*]*\s+from\s+)?['"]([^'"]+)['"]`. -/
def importESMRegex : RE :=
  seqL [lit "import", .plusC isSpaceRE,
    .optR (seqL [.starC isImportInner, .plusC isSpaceRE, lit "from", .plusC isSpaceRE]),
    .cls isQuote, .grpP notQuote, .cls isQuote]

/-- Go: `require\s*\(\s*['"]([^'"]+)['"]\s*\)`. -/
def importCJSRegex : RE :=
  seqL [lit "require", .starC isSpaceRE, lit "(", .starC isSpaceRE,
    .cls isQuote, .grpP notQuote, .cls isQuote, .starC isSpaceRE, lit ")"]

/-- Go: `(?:^|\s)(?:async\s+)?function\s+(\w+)\s*\(`. -/
def funcDeclRegex : RE :=
  seqL [.alt .bol (.cls isSpaceRE),
    .optR (.seq (lit "async") (.plusC isSpaceRE)),
    lit "function", .plusC isSpaceRE, .grpP isWordChar, .starC isSpaceRE, lit "("]

/-- Go: `(?:const|let|var)\s+(\w+)\s*=\s*(?:async\s+)?function\s*\(`. -/
def funcExprRegex : RE :=
  seqL [.alt (lit "const") (.alt (lit "let") (lit "var")), .plusC isSpaceRE,
    .grpP isWordChar, .starC isSpaceRE, lit "=", .starC isSpaceRE,
    .optR (.seq (lit "async") (.plusC isSpaceRE)),
    lit "function", .starC isSpaceRE, lit "("]

/-- Go: `(?:const|let|var)\s+(\w+)\s*=\s*(?:async\s+)?(?:\([^)]*\)|[\w]+)\s*=>`. -/
def arrowFuncRegex : RE :=
  seqL [.alt (lit "const") (.alt (lit "let") (lit "var")), .plusC isSpaceRE,
    .grpP isWordChar, .starC isSpaceRE, lit "=", .starC isSpaceRE,
    .optR (.seq (lit "async") (.plusC isSpaceRE)),
    .alt (seqL [lit "(", .starC notCloseParen, lit ")"]) (.plusC isWordChar),
    .starC isSpaceRE, lit "=>"]

/-- Go: `(?:^|\s)(?:export\s+(?:default\s+)?)?class\s+(\w+)`. -/
def classDeclRegex : RE :=
  seqL [.alt .bol (.cls isSpaceRE),
    .optR (seqL [lit "export", .plusC isSpaceRE,
      .optR (.seq (lit "default") (.plusC isSpaceRE))]),
    lit "class", .plusC isSpaceRE, .grpP isWordChar]

/-- Go: `export\s+\{([^}]+)\}`. -/
def exportNamedRegex : RE :=
  seqL [lit "export", .plusC isSpaceRE, .strC ['\x7b'], .grpP notCloseBrace, .strC ['\x7d']]

/-- Go: `export\s+(?:const|let|var|function|class|async\s+function)\s+(\w+)`. -/
def exportDeclRegex : RE :=
  seqL [lit "export", .plusC isSpaceRE,
    .alt (lit "const") (.alt (lit "let") (.alt (lit "var") (.alt (lit "function")
      (.alt (lit "class") (seqL [lit "async", .plusC isSpaceRE, lit "function"]))))),
    .plusC isSpaceRE, .grpP isWordChar]

/-- Go: `export\s+default\s+(\w+)`. -/
def exportDefaultRegex : RE :=
  seqL [lit "export", .plusC isSpaceRE, lit "default", .plusC isSpaceRE, .grpP isWordChar]

/-! ## String helpers mirroring the Go `strings` package -/

/-- Find the first occurrence of the (non-empty) pattern `pat`; return
the part strictly before it and the part strictly after it.  Mirrors
`strings.Index` plus slicing. -/
def findSub (pat : List Char) : List Char → Option (List Char × List Char)
  | [] => none
  | c :: rest =>
    if pat.isPrefixOf (c :: rest) then some ([], (c :: rest).drop pat.length)
    else
      match findSub pat rest with
      | some (pre, post) => some (c :: pre, post)
      | none => none

/-- `strings.Split` on a single separator character; mirrors Go's
behavior (`Split("", sep) = [""]`, trailing separators produce a final
empty field). -/
def splitOnChar (sep : Char) : List Char → List (List Char)
  | [] => [[]]
  | c :: rest =>
    let r := splitOnChar sep rest
    if c = sep then [] :: r
    else
      match r with
      | [] => [[c]]
      | g :: gs => (c :: g) :: gs

/-- `strings.Join` with a separator. -/
def joinWith (sep : List Char) : List (List Char) → List Char
  | [] => []
  | [g] => g
  | g :: gs => g ++ sep ++ joinWith sep gs

/-- The whitespace set of Go's `unicode.IsSpace`, as used by
`strings.TrimSpace`. -/
def isSpaceGo (c : Char) : Bool :=
  c = ' ' || c = '\t' || c = '\n' || c = '\x0b' || c = '\x0c' || c = '\r' ||
  c = '\x85' || c = '\xa0' || c.toNat = 0x1680 ||
  (0x2000 ≤ c.toNat && c.toNat ≤ 0x200a) ||
  c.toNat = 0x2028 || c.toNat = 0x2029 || c.toNat = 0x202f ||
  c.toNat = 0x205f || c.toNat = 0x3000

/-- `strings.TrimSpace`. -/
def trimSpaceGo (cs : List Char) : List Char :=
  ((cs.dropWhile isSpaceGo).reverse.dropWhile isSpaceGo).reverse

/-! ## Comment stripping (`removeComments` of `part_004`) -/

/-- One pass of `regexp.MustCompile("/\\*[\\s\\S]*?\\*/").ReplaceAllString(s, "")`:
repeatedly remove the leftmost `/*` together with everything up to the
first following `*/`.  An unterminated `/*` is not a match and is kept.
`fuel` bounds the number of removals; `length + 1` always suffices. -/
def stripBlockComments : Nat → List Char → List Char
  | 0, cs => cs
  | fuel+1, cs =>
    match findSub ['/', '*'] cs with
    | none => cs
    | some (pre, post) =>
      match findSub ['*', '/'] post with
      | none => cs
      | some (_, post2) => pre ++ stripBlockComments fuel post2

/-- Per physical line, drop everything from the first `//` on
(`strings.Index(line, "//")`), with no awareness of string literals. -/
def cutLineComment (line : List Char) : List Char :=
  match findSub ['/', '/'] line with
  | none => line
  | some (pre, _) => pre

/-- `removeComments`: strip `/* ... */` blocks, then split into lines,
cut each line at its first `//`, and re-join with newlines. -/
def removeComments (source : String) : String :=
  let cs := stripBlockComments (source.data.length + 1) source.data
  String.mk (joinWith ['\n'] ((splitOnChar '\n' cs).map cutLineComment))

/-! ## The extraction passes and `Parse` -/

/-- `extractImports`: group-1 captures of the ESM pattern followed by
those of the CommonJS pattern. -/
def extractImports (source : String) : List String :=
  findAllCaptures importESMRegex source ++ findAllCaptures importCJSRegex source

/-- `extractFunctions`: declarations, then function expressions, then
arrow functions. -/
def extractFunctions (source : String) : List String :=
  findAllCaptures funcDeclRegex source ++ findAllCaptures funcExprRegex source ++
    findAllCaptures arrowFuncRegex source

/-- `extractClasses`. -/
def extractClasses (source : String) : List String :=
  findAllCaptures classDeclRegex source

/-- Processing of one entry of a named-export list: trim, and if the
trimmed entry contains `" as "` keep only the (re-trimmed) part before
it — i.e. the original, pre-rename identifier. -/
def namedEntryName (nm : List Char) : List Char :=
  let nm1 := trimSpaceGo nm
  match findSub [' ', 'a', 's', ' '] nm1 with
  | none => nm1
  | some (pre, _) => trimSpaceGo pre

/-- `extractExports`: named-export lists (split on `,`, `" as "`
handling, empty names dropped), then declaration exports, then default
exports. -/
def extractExports (source : String) : List String :=
  let named := (findAllCaptures exportNamedRegex source).flatMap (fun inner =>
    ((splitOnChar ',' inner.data).map namedEntryName).filterMap (fun nm =>
      if nm.isEmpty then none else some (String.mk nm)))
  named ++ findAllCaptures exportDeclRegex source ++ findAllCaptures exportDefaultRegex source

/-- Lexicographic comparison of character sequences by codepoint.  This
is Go's byte-wise string comparison: UTF-8 byte order coincides with
codepoint order. -/
def lexLe : List Char → List Char → Bool
  | [], _ => true
  | _ :: _, [] => false
  | a :: as, b :: bs =>
    if a.toNat < b.toNat then true
    else if a.toNat = b.toNat then lexLe as bs else false

/-- Go's `s1 <= s2` on strings. -/
def strLe (a b : String) : Bool := lexLe a.data b.data

/-- `sort.Strings`: ascending lexicographic sort. -/
def sortStrings (xs : List String) : List String :=
  List.insertionSort (fun a b => strLe a b = true) xs

/-- `deduplicate`'s loop: keep an element iff it differs from the
previous element of the (sorted) input. -/
def dedupFrom (prev : String) : List String → List String
  | [] => []
  | x :: xs => if x ≠ prev then x :: dedupFrom x xs else dedupFrom x xs

/-- `deduplicate`: remove adjacent duplicates from a sorted slice. -/
def deduplicate : List String → List String
  | [] => []
  | x :: xs => x :: dedupFrom x xs

/-- `parser.FileStructure`: the shallow parsed structure of one file. -/
structure FileStructure where
  imports : List String
  functions : List String
  classes : List String
  exports : List String
deriving Repr, DecidableEq

/-- The (total) body of `JSParser.Parse`: strip comments, run the four
independent extraction passes, sort each list, deduplicate each list. -/
def parseStructure (source : String) : FileStructure :=
  let src := removeComments source
  { imports := deduplicate (sortStrings (extractImports src))
    functions := deduplicate (sortStrings (extractFunctions src))
    classes := deduplicate (sortStrings (extractClasses src))
    exports := deduplicate (sortStrings (extractExports src)) }

/-- `JSParser.Parse`: the Go signature returns `(FileStructure, error)`;
the body always returns a `nil` error. -/
def Parse (source : String) : Except String FileStructure := .ok (parseStructure source)

/-- `JSParser.SupportsExtension`. -/
def SupportsExtension (ext : String) : Bool :=
  ext = ".js" || ext = ".ts" || ext = ".gs"

end parser

namespace ir

/-! ## SHA-256 (`crypto/sha256`), on bytes represented as `Nat < 256` -/

/-- `2^32`. -/
def M32 : Nat := 4294967296

/-- 32-bit modular addition. -/
def add32 (a b : Nat) : Nat := (a + b) % M32

/-- 32-bit right rotation (argument assumed `< 2^32`). -/
def rotr32 (x n : Nat) : Nat := ((x >>> n) ||| (x <<< (32 - n))) % M32

/-- 32-bit complement (argument assumed `< 2^32`). -/
def not32 (x : Nat) : Nat := (M32 - 1) - x % M32

/-- SHA-256 `Ch(x,y,z) = (x ∧ y) ⊕ (¬x ∧ z)`. -/
def chB (x y z : Nat) : Nat := Nat.xor (Nat.land x y) (Nat.land (not32 x) z)

/-- SHA-256 `Maj(x,y,z)`. -/
def majB (x y z : Nat) : Nat :=
  Nat.xor (Nat.xor (Nat.land x y) (Nat.land x z)) (Nat.land y z)

/-- SHA-256 `Σ₀`. -/
def bigSigma0 (x : Nat) : Nat := Nat.xor (Nat.xor (rotr32 x 2) (rotr32 x 13)) (rotr32 x 22)

/-- SHA-256 `Σ₁`. -/
def bigSigma1 (x : Nat) : Nat := Nat.xor (Nat.xor (rotr32 x 6) (rotr32 x 11)) (rotr32 x 25)

/-- SHA-256 `σ₀`. -/
def smallSigma0 (x : Nat) : Nat := Nat.xor (Nat.xor (rotr32 x 7) (rotr32 x 18)) (x >>> 3)

/-- SHA-256 `σ₁`. -/
def smallSigma1 (x : Nat) : Nat := Nat.xor (Nat.xor (rotr32 x 17) (rotr32 x 19)) (x >>> 10)

/-- The 64 SHA-256 round constants (FIPS 180-4), in decimal. -/
def K64 : List Nat :=
  [1116352408, 1899447441, 3049323471, 3921009573, 961987163,
   1508970993, 2453635748, 2870763221, 3624381080, 310598401,
   607225278, 1426881987, 1925078388, 2162078206, 2614888103,
   3248222580, 3835390401, 4022224774, 264347078, 604807628,
   770255983, 1249150122, 1555081692, 1996064986, 2554220882,
   2821834349, 2952996808, 3210313671, 3336571891, 3584528711,
   113926993, 338241895, 666307205, 773529912, 1294757372,
   1396182291, 1695183700, 1986661051, 2177026350, 2456956037,
   2730485921, 2820302411, 3259730800, 3345764771, 3516065817,
   3600352804, 4094571909, 275423344, 430227734, 506948616,
   659060556, 883997877, 958139571, 1322822218, 1537002063,
   1747873779, 1955562222, 2024104815, 2227730452, 2361852424,
   2428436474, 2756734187, 3204031479, 3329325298]

/-- The SHA-256 initial hash value (FIPS 180-4), in decimal. -/
def H0 : List Nat :=
  [1779033703, 3144134277, 1013904242, 2773480762, 1359893119,
   2600822924, 528734635, 1541459225]

/-- `k` big-endian bytes of `n`. -/
def beBytes (k : Nat) (n : Nat) : List Nat :=
  (List.range k).map (fun i => n >>> (8 * (k - 1 - i)) % 256)

/-- Group bytes into big-endian 32-bit words. -/
def toWords : List Nat → List Nat
  | b0 :: b1 :: b2 :: b3 :: rest =>
    (b0 * 16777216 + b1 * 65536 + b2 * 256 + b3) :: toWords rest
  | _ => []

/-- Message-schedule extension; `acc` holds the words produced so far,
most recent first. -/
def extendW : Nat → List Nat → List Nat
  | 0, acc => acc
  | n+1, acc =>
    let g := fun i => acc.getD i 0
    let w := add32 (add32 (smallSigma1 (g 1)) (g 6)) (add32 (smallSigma0 (g 14)) (g 15))
    extendW n (w :: acc)

/-- One SHA-256 round on the state `[a,b,c,d,e,f,g,h]`. -/
def round256 (st : List Nat) (kv wv : Nat) : List Nat :=
  match st with
  | [a, b, c, d, e, f, g, h] =>
    let t1 := add32 h (add32 (bigSigma1 e) (add32 (chB e f g) (add32 kv wv)))
    let t2 := add32 (bigSigma0 a) (majB a b c)
    [add32 t1 t2, a, b, c, add32 d t1, e, f, g]
  | _ => st

/-- Compress one 64-byte block into the running hash state. -/
def processBlock (h8 : List Nat) (block : List Nat) : List Nat :=
  let ws := toWords block
  let w := (extendW 48 ws.reverse).reverse
  let out := (K64.zip w).foldl (fun s kw => round256 s kw.1 kw.2) h8
  (h8.zip out).map (fun p => add32 p.1 p.2)

/-- Split into 64-byte blocks (`fuel ≥ length` suffices). -/
def blocks64 : Nat → List Nat → List (List Nat)
  | 0, _ => []
  | _, [] => []
  | fuel+1, bs => bs.take 64 :: blocks64 fuel (bs.drop 64)

/-- SHA-256 of a byte sequence: the 32 digest bytes. -/
def sha256 (msg : List Nat) : List Nat :=
  let L := msg.length
  let zeros := (56 + 64 - (L + 1) % 64) % 64
  let padded := msg ++ 128 :: List.replicate zeros 0 ++ beBytes 8 (L * 8)
  let final := (blocks64 padded.length padded).foldl processBlock H0
  final.flatMap (beBytes 4)

/-- One lowercase hexadecimal digit. -/
def hexDigit (n : Nat) : Char :=
  if n < 10 then Char.ofNat ('0'.toNat + n) else Char.ofNat ('a'.toNat + n - 10)

/-- Two lowercase hexadecimal digits of a byte. -/
def byteHex (b : Nat) : List Char := [hexDigit (b / 16), hexDigit (b % 16)]

/-- `HashBytes`: SHA-256 of a byte slice, as 64 lowercase hex characters. -/
def HashBytes (data : List Nat) : String := String.mk ((sha256 data).flatMap byteHex)

/-- UTF-8 encoding of one character. -/
def utf8Bytes (c : Char) : List Nat :=
  let n := c.toNat
  if n < 0x80 then [n]
  else if n < 0x800 then [0xc0 ||| (n >>> 6), 0x80 ||| (n &&& 0x3f)]
  else if n < 0x10000 then
    [0xe0 ||| (n >>> 12), 0x80 ||| ((n >>> 6) &&& 0x3f), 0x80 ||| (n &&& 0x3f)]
  else
    [0xf0 ||| (n >>> 18), 0x80 ||| ((n >>> 12) &&& 0x3f), 0x80 ||| ((n >>> 6) &&& 0x3f),
     0x80 ||| (n &&& 0x3f)]

/-- The UTF-8 bytes of a Go string (`[]byte(s)`). -/
def strBytes (s : String) : List Nat := s.data.flatMap utf8Bytes

/-! ## The IR data model (`part_004`)

Go slices are nilable, and `encoding/json` distinguishes a `nil` slice
(marshalled as `null`, produced by decoding an absent field) from an
empty one (marshalled as `[]`); a `[]string` field is therefore
modelled as `Option (List String)`, with `none` for Go `nil`. -/

/-- `FileIR`: the parsed structure of a single file. -/
structure FileIR where
  hash : String
  imports : Option (List String)
  functions : Option (List String)
  classes : Option (List String)
  exports : Option (List String)
deriving Repr, DecidableEq

/-- The zero value of `FileIR` (what a Go map access returns on a
missing key). -/
def zeroFileIR : FileIR := ⟨"", none, none, none, none⟩

/-- `IR`: the complete intermediate representation.  The Go `Files`
field is an unordered `map[string]FileIR`; it is modelled as an
association list whose order is irrelevant to every deterministic
operation (which is the point of the claims about sorting). -/
structure IR where
  version : Nat
  rootHash : String
  files : List (String × FileIR)
deriving Repr, DecidableEq

/-- The keys of the files map. -/
def mapKeys (m : List (String × FileIR)) : List String := m.map Prod.fst

/-- The no-duplicate-keys invariant of a Go map. -/
def keysNodup (m : List (String × FileIR)) : Prop := (m.map Prod.fst).Nodup

instance (m : List (String × FileIR)) : Decidable (keysNodup m) := by
  unfold keysNodup; infer_instance

/-- Go map read `m[k]` (`none` when absent). -/
def mapFind (m : List (String × FileIR)) (k : String) : Option FileIR :=
  match m with
  | [] => none
  | (k1, v) :: rest => if k1 = k then some v else mapFind rest k

/-- Go map read with the zero value on a missing key. -/
def mapGet (m : List (String × FileIR)) (k : String) : FileIR :=
  (mapFind m k).getD zeroFileIR

/-- Go map write `m[k] = v`: replace an existing entry, else add one. -/
def mapInsert (m : List (String × FileIR)) (k : String) (v : FileIR) :
    List (String × FileIR) :=
  if (mapFind m k).isSome then m.map (fun p => if p.1 = k then (k, v) else p)
  else m ++ [(k, v)]

/-- `ComputeRootHash` (`generator.go`): collect the keys, sort them,
build `path:hash` lines joined by `\n` with a string builder, and hash
the UTF-8 bytes; the empty map short-circuits to the hash of the empty
byte sequence. -/
def ComputeRootHash (files : List (String × FileIR)) : String :=
  if files.isEmpty then HashBytes []
  else
    let paths := parser.sortStrings (mapKeys files)
    let built := paths.enum.foldl
      (fun acc ip => acc ++ (if ip.1 > 0 then "\n" else "") ++ ip.2 ++ ":" ++ (mapGet files ip.2).hash)
      ""
    HashBytes (strBytes built)

/-- Newline-joining exactly as the specification words it: no trailing
newline, empty list gives the empty string. -/
def specJoin : List String → String
  | [] => ""
  | [x] => x
  | x :: xs => x ++ "\n" ++ specJoin xs

/-- The `path:hash` line of one entry. -/
def rootLine (files : List (String × FileIR)) (p : String) : String :=
  p ++ ":" ++ (mapGet files p).hash

/-- The root-fingerprint preimage as the specification describes it:
sorted paths, `path:hash` lines, newline-joined. -/
def specRootInput (files : List (String × FileIR)) : String :=
  specJoin ((parser.sortStrings (mapKeys files)).map (rootLine files))

/-! ## Path normalization (`normalizePath` of `generator.go`) -/

/-- Lookup in the canonical-composition table. -/
def lookupPair : List ((Char × Char) × Char) → Char → Char → Option Char
  | [], _, _ => none
  | (k, v) :: rest, c1, c2 =>
    if k.1 = c1 && k.2 = c2 then some v else lookupPair rest c1 c2

/-- Modelled from the spec: Unicode NFC canonical composition as
performed by `golang.org/x/text/unicode/norm` (`norm.NFC.String`),
which is not part of this repository.  The model restricts the
canonical-composition data to a finite table of base-plus-combining
pairs (enough for the filenames appearing in the claims); characters
outside the table are passed through unchanged. -/
def composeTable : List ((Char × Char) × Char) :=
  [(('e', '́'), 'é'), (('E', '́'), 'É'),
   (('a', '̀'), 'à'), (('a', '́'), 'á'),
   (('c', '̧'), 'ç'), (('n', '̃'), 'ñ'),
   (('o', '́'), 'ó'), (('u', '̈'), 'ü')]

/-- Canonical composition scan: combine a base character with a
following combining character whenever the table allows, and retry the
composed character against the next one.  `fuel ≥ length` suffices. -/
def nfcAux : Nat → List Char → List Char
  | 0, cs => cs
  | _+1, [] => []
  | _+1, [c] => [c]
  | fuel+1, c1 :: c2 :: rest =>
    match lookupPair composeTable c1 c2 with
    | some comp => nfcAux fuel (comp :: rest)
    | none => c1 :: nfcAux fuel (c2 :: rest)

/-- NFC normalization of a string (see `composeTable`). -/
def nfcStr (s : String) : String := String.mk (nfcAux s.data.length s.data)

/-- `filepath.ToSlash`: replace the platform separator by `/` (the
identity on platforms whose separator is already `/`). -/
def toSlash (sep : Char) (s : String) : String :=
  String.mk (s.data.map (fun c => if c = sep then '/' else c))

/-- `strings.TrimPrefix(s, "./")`: strip one leading `./` if present. -/
def stripDotSlash (s : String) : String :=
  if ['.', '/'].isPrefixOf s.data then String.mk (s.data.drop 2) else s

/-- `normalizePath` for an arbitrary platform separator: forward
slashes, strip one `./`, NFC-normalize. -/
def normalizePathOn (sep : Char) (relPath : String) : String :=
  nfcStr (stripDotSlash (toSlash sep relPath))

/-- `normalizePath` as run by the model (separator `/`). -/
def normalizePath (relPath : String) : String := normalizePathOn '/' relPath

/-! ## The tree walker and the generator (`generator.go`)

The filesystem is modelled as a tree; `filepath.Walk` is modelled from
its documented behavior: entries of a directory are visited in sorted
name order, symbolic links are visited via `lstat` (never followed), a
directory whose name is in the ignore set is skipped with
`filepath.SkipDir`, and an error from `lstat` on the root is passed to
the callback, which in `generator.go` prints a warning and returns
`nil`, so the walk itself never returns an error.  Per-entry I/O
failures (unreadable files, races) are outside the model. -/

/-- A filesystem node: a regular file with its content, a directory, or
a symbolic link (whose target is irrelevant, since links are skipped). -/
inductive FSEntry where
  | file (name : String) (content : String)
  | dir (name : String) (entries : List FSEntry)
  | symlink (name : String)
deriving Repr

/-- The base name of a node. -/
def entryName : FSEntry → String
  | .file n _ => n
  | .dir n _ => n
  | .symlink n => n

/-- `readDirNames` sorts directory entries by name. -/
def sortEntries (es : List FSEntry) : List FSEntry :=
  List.insertionSort (fun a b => parser.strLe (entryName a) (entryName b) = true) es

/-- `filepath.Ext`: the suffix beginning at the final dot of the last
path element, or the empty string. -/
def extOf (name : String) : String :=
  if '.' ∈ name.data then
    String.mk ('.' :: (name.data.reverse.takeWhile (fun c => c ≠ '.')).reverse)
  else ""

/-- Join a relative path and a child name. -/
def joinRel (pre n : String) : String := if pre = "" then n else pre ++ "/" ++ n

/-- Depth-first walk below the root, collecting `(relative path,
content)` for every eligible file: symlinks are skipped, ignored
directory names are pruned, files are filtered by extension.  `fuel`
bounds the recursion depth; `sizeOf` of the tree always suffices. -/
def walkEntryF (ignored : List String) : Nat → String → FSEntry → List (String × String)
  | 0, _, _ => []
  | _+1, _, .symlink _ => []
  | _+1, pre, .file n content =>
    if parser.SupportsExtension (extOf n) then [(joinRel pre n, content)] else []
  | fuel+1, pre, .dir n es =>
    if ignored.contains n then []
    else (sortEntries es).flatMap (walkEntryF ignored fuel (joinRel pre n))

mutual

/-- The number of nodes of a tree: an executable fuel bound that always
dominates the depth. -/
def fsFuel : FSEntry → Nat
  | .file _ _ => 1
  | .symlink _ => 1
  | .dir _ es => 1 + fsFuelList es

/-- Total node count of a list of trees. -/
def fsFuelList : List FSEntry → Nat
  | [] => 0
  | e :: es => fsFuel e + fsFuelList es

end

/-- The walk from the root itself: the root's own base name is also
checked against the ignore set, and files directly below the root get
their bare name as relative path; a regular-file root gets relative
path `"."` (`filepath.Rel(root, root)`). -/
def walkRoot (ignored : List String) : FSEntry → List (String × String)
  | .symlink _ => []
  | .file n content =>
    if parser.SupportsExtension (extOf n) then [(".", content)] else []
  | .dir n es =>
    if ignored.contains n then []
    else (sortEntries es).flatMap (walkEntryF ignored (1 + fsFuelList es) "")

/-- The default ignore set installed by `NewGenerator` when the
configuration provides none. -/
def defaultIgnored : List String := ["node_modules", "dist", ".git", ".cursor", ".vscode"]

/-- `NewGenerator`'s ignore set: the configured directory names, or the
default set when the configuration is empty. -/
def generatorIgnored (cfg : List String) : List String :=
  if cfg.isEmpty then defaultIgnored else cfg

/-- `parseFile`'s successful result on a file with the given content:
content hash, plus the parsed structure with each list re-sorted (the
generator enforces sorting even though the parser already sorts). -/
def parseFileEntry (content : String) : FileIR :=
  { hash := HashBytes (strBytes content)
    imports := some (parser.sortStrings (parser.parseStructure content).imports)
    functions := some (parser.sortStrings (parser.parseStructure content).functions)
    classes := some (parser.sortStrings (parser.parseStructure content).classes)
    exports := some (parser.sortStrings (parser.parseStructure content).exports) }

/-- `parseFile`: read (modelled as given content), hash, parse, sort.
I/O failures are outside the model; the parse step's error would be
propagated, but `Parse` never fails. -/
def parseFile (content : String) : Except String FileIR :=
  (parser.Parse content).map (fun _ => parseFileEntry content)

/-- One iteration of `Generate`'s walk callback on an eligible file:
parse (skipping the file on a parse error, which cannot happen), then
record the entry under the normalized relative path. -/
def genStep (m : List (String × FileIR)) (pc : String × String) : List (String × FileIR) :=
  match parseFile pc.2 with
  | .error _ => m
  | .ok fir => mapInsert m (normalizePath pc.1) fir

/-- The files map assembled by `Generate` from a list of walk visits. -/
def generateVisits (vs : List (String × String)) : List (String × FileIR) :=
  vs.foldl genStep []

/-- The root argument of `Generate`/`Update` as the model sees it:
`.error e` when `filepath.Abs` fails (the working directory cannot be
determined — the only way `Abs` fails; it never checks existence),
`.ok none` when the resolved root does not exist on disk (`lstat`
fails), and `.ok (some t)` when it resolves to the tree `t`. -/
abbrev ResolvedRoot := Except String (Option FSEntry)

/-- `Generate`: walk the tree and assemble the IR.  A root whose
absolute path cannot be determined aborts; a root that does not exist
makes the walk callback print a warning and continue, so the call
succeeds with an empty files map. -/
def Generate (ignoredCfg : List String) (root : ResolvedRoot) : Except String IR :=
  match root with
  | .error e => .error ("failed to resolve absolute path: " ++ e)
  | .ok none =>
    .ok { version := 1, rootHash := ComputeRootHash [], files := [] }
  | .ok (some t) =>
    let files := generateVisits (walkRoot (generatorIgnored ignoredCfg) t)
    .ok { version := 1, rootHash := ComputeRootHash files, files := files }

/-- One iteration of `Update`'s walk callback on an eligible file:
hash first; reuse the prior entry verbatim when it exists under the
same normalized path with the same hash; otherwise parse afresh. -/
def updateStep (prior : List (String × FileIR)) (m : List (String × FileIR))
    (pc : String × String) : List (String × FileIR) :=
  let key := normalizePath pc.1
  let currentHash := HashBytes (strBytes pc.2)
  match mapFind prior key with
  | some existing =>
    if existing.hash = currentHash then mapInsert m key existing
    else
      match parseFile pc.2 with
      | .error _ => m
      | .ok fir => mapInsert m key fir
  | none =>
    match parseFile pc.2 with
    | .error _ => m
    | .ok fir => mapInsert m key fir

/-- The files map assembled by `Update` from the prior files map and a
list of walk visits; it starts empty, so prior entries whose paths are
not visited are dropped. -/
def updateVisits (prior : List (String × FileIR)) (vs : List (String × String)) :
    List (String × FileIR) :=
  vs.foldl (updateStep prior) []

/-- `Update`: identical traversal to `Generate`, with hash-based reuse
of prior entries, and the root fingerprint recomputed from the final
entry set. -/
def Update (ignoredCfg : List String) (prior : IR) (root : ResolvedRoot) :
    Except String IR :=
  match root with
  | .error e => .error ("failed to resolve absolute path: " ++ e)
  | .ok none =>
    .ok { version := 1, rootHash := ComputeRootHash [], files := [] }
  | .ok (some t) =>
    let files := updateVisits prior.files (walkRoot (generatorIgnored ignoredCfg) t)
    .ok { version := 1, rootHash := ComputeRootHash files, files := files }

/-! ## Serialization (`MarshalJSON` / `UnmarshalJSON` / `Load`, `part_004`)

`encoding/json` is external to the repository; its documented behavior
is modelled here: `Marshal` emits struct fields in declaration order
and map keys in sorted order, escapes `"` `\` control characters and
(HTML-escaping, on by default) `<` `>` `&`, renders a nil slice as
`null` and an empty one as `[]`; `MarshalIndent(v, "", "  ")` puts
every element or field on its own line with two-space nesting and
renders empty objects and arrays as `{}` and `[]`.  `Unmarshal` leaves
a struct field at its zero value when the corresponding JSON field is
absent or `null`. -/

/-- Join with a separator. -/
def joinSep (sep : String) : List String → String
  | [] => ""
  | [x] => x
  | x :: xs => x ++ sep ++ joinSep sep xs

/-- Four lowercase hex digits. -/
def hex4 (n : Nat) : List Char :=
  [hexDigit (n / 4096 % 16), hexDigit (n / 256 % 16), hexDigit (n / 16 % 16), hexDigit (n % 16)]

/-- JSON escaping of one character, as `encoding/json` does with its
default HTML escaping. -/
def jsonEscapeChar (c : Char) : List Char :=
  if c = '"' then ['\\', '"']
  else if c = '\\' then ['\\', '\\']
  else if c = '\n' then ['\\', 'n']
  else if c = '\r' then ['\\', 'r']
  else if c = '\t' then ['\\', 't']
  else if c.toNat < 32 || c = '<' || c = '>' || c = '&' ||
      c.toNat = 0x2028 || c.toNat = 0x2029 then
    '\\' :: 'u' :: hex4 c.toNat
  else [c]

/-- A JSON string literal. -/
def jsonStr (s : String) : String :=
  "\"" ++ String.mk (s.data.flatMap jsonEscapeChar) ++ "\""

/-- An indented `[]string` value; Go `nil` renders as `null`. -/
def encStrArr (ind : String) : Option (List String) → String
  | none => "null"
  | some [] => "[]"
  | some xs =>
    "[\n" ++ joinSep ",\n" (xs.map (fun x => ind ++ "  " ++ jsonStr x)) ++ "\n" ++ ind ++ "]"

/-- An indented `FileIR` object: fields in declaration order
`hash`, `imports`, `functions`, `classes`, `exports`. -/
def encFileIR (ind : String) (e : FileIR) : String :=
  "\x7b\n" ++
  ind ++ "  \"hash\": " ++ jsonStr e.hash ++ ",\n" ++
  ind ++ "  \"imports\": " ++ encStrArr (ind ++ "  ") e.imports ++ ",\n" ++
  ind ++ "  \"functions\": " ++ encStrArr (ind ++ "  ") e.functions ++ ",\n" ++
  ind ++ "  \"classes\": " ++ encStrArr (ind ++ "  ") e.classes ++ ",\n" ++
  ind ++ "  \"exports\": " ++ encStrArr (ind ++ "  ") e.exports ++ "\n" ++
  ind ++ "\x7d"

/-- An indented `map[string]FileIR` value: `encoding/json` emits map
keys in sorted order, whatever the map's own order. -/
def encFilesObj (ind : String) (m : List (String × FileIR)) : String :=
  if m.isEmpty then "\x7b\x7d"
  else
    "\x7b\n" ++
    joinSep ",\n" ((parser.sortStrings (mapKeys m)).map (fun k =>
      ind ++ "  " ++ jsonStr k ++ ": " ++ encFileIR (ind ++ "  ") (mapGet m k))) ++
    "\n" ++ ind ++ "\x7d"

/-- `IR.MarshalJSON`: sort the paths, rebuild the files map in sorted
order (still a Go map), and `json.MarshalIndent` the anonymous struct
with fields `version`, `root_hash`, `files`. -/
def MarshalJSON (ir : IR) : String :=
  let orderedFiles := (parser.sortStrings (mapKeys ir.files)).map (fun k => (k, mapGet ir.files k))
  "\x7b\n  \"version\": " ++ toString ir.version ++
  ",\n  \"root_hash\": " ++ jsonStr ir.rootHash ++
  ",\n  \"files\": " ++ encFilesObj "  " orderedFiles ++ "\n\x7d"

/-- The serialization exactly as the specification words it: the fixed
field order `version`, `root_hash`, `files`, with the keys of `files`
emitted in strictly ascending lexicographic order, straight from the
in-memory map. -/
def specSerialize (ir : IR) : String :=
  "\x7b\n  \"version\": " ++ toString ir.version ++
  ",\n  \"root_hash\": " ++ jsonStr ir.rootHash ++
  ",\n  \"files\": " ++
  (if ir.files.isEmpty then "\x7b\x7d"
   else
     "\x7b\n" ++
     joinSep ",\n" ((parser.sortStrings (mapKeys ir.files)).map (fun k =>
       "    " ++ jsonStr k ++ ": " ++ encFileIR "    " (mapGet ir.files k))) ++
     "\n  \x7d") ++ "\n\x7d"

/-- A JSON value (numbers restricted to naturals, which is all the
format uses). -/
inductive JVal where
  | jnull : JVal
  | jbool : Bool → JVal
  | jnum : Nat → JVal
  | jstr : String → JVal
  | jarr : List JVal → JVal
  | jobj : List (String × JVal) → JVal

/-- Field lookup in a decoded JSON object (later duplicates win, as in
`encoding/json`). -/
def jget (fs : List (String × JVal)) (k : String) : Option JVal :=
  fs.foldl (fun acc f => if f.1 = k then some f.2 else acc) none

/-- Decode a `string` struct field: absent or `null` leaves the zero
value `""`. -/
def decStrField (fs : List (String × JVal)) (k : String) : Except String String :=
  match jget fs k with
  | none => .ok ""
  | some .jnull => .ok ""
  | some (.jstr s) => .ok s
  | some _ => .error ("cannot unmarshal into field " ++ k)

/-- Decode an `int` struct field: absent or `null` leaves the zero
value `0`. -/
def decNumField (fs : List (String × JVal)) (k : String) : Except String Nat :=
  match jget fs k with
  | none => .ok 0
  | some .jnull => .ok 0
  | some (.jnum n) => .ok n
  | some _ => .error ("cannot unmarshal into field " ++ k)

/-- Decode a `[]string` struct field: absent or `null` leaves the zero
value, Go's `nil` slice (`none` here) — not an empty slice. -/
def decSliceField (fs : List (String × JVal)) (k : String) :
    Except String (Option (List String)) :=
  match jget fs k with
  | none => .ok none
  | some .jnull => .ok none
  | some (.jarr xs) =>
    (xs.mapM (fun (v : JVal) =>
      match v with
      | .jstr s => Except.ok s
      | _ => Except.error ("cannot unmarshal element of " ++ k))).map some
  | some _ => .error ("cannot unmarshal into field " ++ k)

/-- Decode one `FileIR` object. -/
def decFileIR : JVal → Except String FileIR
  | .jnull => .ok zeroFileIR
  | .jobj fs => do
    let hash ← decStrField fs "hash"
    let imports ← decSliceField fs "imports"
    let functions ← decSliceField fs "functions"
    let classes ← decSliceField fs "classes"
    let exports ← decSliceField fs "exports"
    pure ⟨hash, imports, functions, classes, exports⟩
  | _ => .error "cannot unmarshal into FileIR"

/-- Decode the `files` field: absent or `null` leaves a `nil` map. -/
def decFilesField (fs : List (String × JVal)) :
    Except String (List (String × FileIR)) :=
  match jget fs "files" with
  | none => .ok []
  | some .jnull => .ok []
  | some (.jobj entries) =>
    entries.mapM (fun kv => (decFileIR kv.2).map (fun e => (kv.1, e)))
  | some _ => .error "cannot unmarshal into field files"

/-- `IR.UnmarshalJSON`, at the level of JSON values: decode into the
auxiliary struct with fields `version`, `root_hash`, `files` and copy
them over. -/
def UnmarshalIR : JVal → Except String IR
  | .jobj fs => do
    let version ← decNumField fs "version"
    let rootHash ← decStrField fs "root_hash"
    let files ← decFilesField fs
    pure ⟨version, rootHash, files⟩
  | _ => .error "cannot unmarshal into IR"

/-- `Load`: read and deserialize.  The byte-level JSON text is modelled
as an already-tokenized `Option JVal`: `none` stands for bytes that are
not valid JSON (a parse error), `some v` for bytes parsing to `v`. -/
def Load (content : Option JVal) : Except String IR :=
  match content with
  | none => .error "failed to unmarshal IR"
  | some v =>
    match UnmarshalIR v with
    | .error e => .error ("failed to unmarshal IR: " ++ e)
    | .ok ir => .ok ir

end ir

/-! ## Order theory for the Go string comparison -/

namespace parser

theorem char_toNat_inj {a b : Char} (h : a.toNat = b.toNat) : a = b :=
  Char.ext (UInt32.ext (by simpa [Char.toNat] using h))

theorem lexLe_cons {a b : Char} {as bs : List Char} :
    lexLe (a :: as) (b :: bs) = true ↔
      a.toNat < b.toNat ∨ (a.toNat = b.toNat ∧ lexLe as bs = true) := by
  by_cases h : a.toNat < b.toNat
  · simp [lexLe, h]
  · by_cases h2 : a.toNat = b.toNat
    · simp [lexLe, h, h2]
    · simp [lexLe, h, h2]

theorem lexLe_refl : ∀ as, lexLe as as = true := by
  intro as
  induction as with
  | nil => rfl
  | cons a as ih => simp [lexLe_cons, ih]

theorem lexLe_total : ∀ as bs, lexLe as bs = true ∨ lexLe bs as = true := by
  intro as
  induction as with
  | nil => intro bs; left; rfl
  | cons a as ih =>
    intro bs
    cases bs with
    | nil => right; rfl
    | cons b bs =>
      rw [lexLe_cons, lexLe_cons]
      rcases Nat.lt_trichotomy a.toNat b.toNat with h | h | h
      · exact Or.inl (Or.inl h)
      · rcases ih bs with h2 | h2
        · exact Or.inl (Or.inr ⟨h, h2⟩)
        · exact Or.inr (Or.inr ⟨h.symm, h2⟩)
      · exact Or.inr (Or.inl h)

theorem lexLe_antisymm : ∀ as bs, lexLe as bs = true → lexLe bs as = true → as = bs := by
  intro as
  induction as with
  | nil =>
    intro bs _ h2
    cases bs with
    | nil => rfl
    | cons b bs => simp [lexLe] at h2
  | cons a as ih =>
    intro bs h1 h2
    cases bs with
    | nil => simp [lexLe] at h1
    | cons b bs =>
      rw [lexLe_cons] at h1 h2
      rcases h1 with h1 | ⟨h1e, h1r⟩
      · rcases h2 with h2 | ⟨h2e, _⟩
        · exfalso; omega
        · exfalso; omega
      · rcases h2 with h2 | ⟨_, h2r⟩
        · exfalso; omega
        · have he : a = b := char_toNat_inj h1e
          subst he
          exact congrArg (a :: ·) (ih bs h1r h2r)

theorem lexLe_trans : ∀ as bs cs, lexLe as bs = true → lexLe bs cs = true →
    lexLe as cs = true := by
  intro as
  induction as with
  | nil => intro bs cs _ _; rfl
  | cons a as ih =>
    intro bs cs h1 h2
    cases bs with
    | nil => simp [lexLe] at h1
    | cons b bs =>
      cases cs with
      | nil => simp [lexLe] at h2
      | cons c cs =>
        rw [lexLe_cons] at h1 h2 ⊢
        rcases h1 with h1 | ⟨h1e, h1r⟩
        · rcases h2 with h2 | ⟨h2e, _⟩
          · exact Or.inl (by omega)
          · exact Or.inl (by omega)
        · rcases h2 with h2 | ⟨h2e, h2r⟩
          · exact Or.inl (by omega)
          · exact Or.inr ⟨by omega, ih bs cs h1r h2r⟩

theorem strLe_refl (a : String) : strLe a a = true := lexLe_refl a.data

theorem strLe_total (a b : String) : strLe a b = true ∨ strLe b a = true :=
  lexLe_total a.data b.data

theorem strLe_antisymm {a b : String} (h1 : strLe a b = true) (h2 : strLe b a = true) :
    a = b := by
  cases a; cases b
  exact congrArg String.mk (lexLe_antisymm _ _ h1 h2)

theorem strLe_trans {a b c : String} (h1 : strLe a b = true) (h2 : strLe b c = true) :
    strLe a c = true :=
  lexLe_trans a.data b.data c.data h1 h2

/-- The sorting relation used throughout: Go's `<=` on strings. -/
def strOrd : String → String → Prop := fun a b => strLe a b = true

instance : IsTotal String strOrd := ⟨strLe_total⟩

instance : IsTrans String strOrd := ⟨fun _ _ _ => strLe_trans⟩

instance : IsAntisymm String strOrd := ⟨fun _ _ => strLe_antisymm⟩

instance : IsRefl String strOrd := ⟨strLe_refl⟩

instance : DecidableRel strOrd := fun a b => by unfold strOrd; infer_instance

theorem sortStrings_eq (xs : List String) :
    sortStrings xs = List.insertionSort strOrd xs := rfl

theorem sortStrings_sorted (xs : List String) :
    (sortStrings xs).Sorted strOrd := by
  rw [sortStrings_eq]; exact List.sorted_insertionSort strOrd xs

theorem sortStrings_perm (xs : List String) : List.Perm (sortStrings xs) xs := by
  rw [sortStrings_eq]; exact List.perm_insertionSort strOrd xs

theorem sortStrings_of_sorted {xs : List String} (h : xs.Sorted strOrd) :
    sortStrings xs = xs := by
  rw [sortStrings_eq]; exact h.insertionSort_eq

/-! ### `deduplicate` on sorted input: sorted, duplicate-free output -/

theorem dedupFrom_sublist (prev : String) :
    ∀ xs : List String, (dedupFrom prev xs).Sublist xs := by
  intro xs
  induction xs generalizing prev with
  | nil => simp [dedupFrom]
  | cons x xs ih =>
    by_cases h : x = prev
    · subst h
      simp only [dedupFrom, ne_eq, not_true_eq_false, if_false]
      exact (ih x).cons x
    · simp only [dedupFrom, if_pos (by simpa using h)]
      exact (ih x).cons₂ x

theorem dedupFrom_strict {prev : String} {xs : List String}
    (hp : ∀ y ∈ xs, strOrd prev y) (hs : xs.Sorted strOrd) :
    ∀ z ∈ dedupFrom prev xs, strOrd prev z ∧ z ≠ prev := by
  induction xs generalizing prev with
  | nil => intro z hz; simp [dedupFrom] at hz
  | cons x xs ih =>
    intro z hz
    have hx : strOrd prev x := hp x (List.mem_cons_self x xs)
    have hxall : ∀ y ∈ xs, strOrd x y := List.rel_of_sorted_cons hs
    by_cases h : x = prev
    · subst h
      simp only [dedupFrom, ne_eq, not_true_eq_false, if_false] at hz
      exact ih hxall hs.of_cons z hz
    · simp only [dedupFrom, if_pos (by simpa using h)] at hz
      rcases List.mem_cons.1 hz with rfl | hz
      · exact ⟨hx, h⟩
      · obtain ⟨hxz, hzx⟩ := ih hxall hs.of_cons z hz
        refine ⟨strLe_trans hx hxz, fun e => h ?_⟩
        exact strLe_antisymm (e ▸ hxz) (e ▸ hx)

theorem dedupFrom_sorted_nodup {prev : String} {xs : List String}
    (hp : ∀ y ∈ xs, strOrd prev y) (hs : xs.Sorted strOrd) :
    (dedupFrom prev xs).Sorted strOrd ∧ (dedupFrom prev xs).Nodup := by
  induction xs generalizing prev with
  | nil => exact ⟨List.sorted_nil, List.nodup_nil⟩
  | cons x xs ih =>
    have hxall : ∀ y ∈ xs, strOrd x y := List.rel_of_sorted_cons hs
    by_cases h : x = prev
    · subst h
      simp only [dedupFrom, ne_eq, not_true_eq_false, if_false]
      exact ih hxall hs.of_cons
    · simp only [dedupFrom, if_pos (by simpa using h)]
      obtain ⟨hsor, hnd⟩ := ih hxall hs.of_cons
      refine ⟨List.sorted_cons.2 ⟨fun y hy => (dedupFrom_strict hxall hs.of_cons y hy).1, hsor⟩,
        List.nodup_cons.2 ⟨?_, hnd⟩⟩
      intro hmem
      exact (dedupFrom_strict hxall hs.of_cons x hmem).2 rfl

theorem deduplicate_sorted {xs : List String} (hs : xs.Sorted strOrd) :
    (deduplicate xs).Sorted strOrd ∧ (deduplicate xs).Nodup := by
  cases xs with
  | nil => exact ⟨List.sorted_nil, List.nodup_nil⟩
  | cons x xs =>
    have hxall : ∀ y ∈ xs, strOrd x y := List.rel_of_sorted_cons hs
    obtain ⟨hsor, hnd⟩ := dedupFrom_sorted_nodup hxall hs.of_cons
    refine ⟨List.sorted_cons.2 ⟨fun y hy => (dedupFrom_strict hxall hs.of_cons y hy).1, hsor⟩,
      List.nodup_cons.2 ⟨?_, hnd⟩⟩
    intro hmem
    exact (dedupFrom_strict hxall hs.of_cons x hmem).2 rfl

theorem sortDedup_sorted_nodup (xs : List String) :
    (deduplicate (sortStrings xs)).Sorted strOrd ∧ (deduplicate (sortStrings xs)).Nodup :=
  deduplicate_sorted (sortStrings_sorted xs)

end parser

/-! ## Helper lemmas for the root-fingerprint claims -/

namespace ir

theorem buildRoot_tail (files : List (String × FileIR)) :
    ∀ (rest : List String) (n : Nat) (acc : String), rest ≠ [] →
      (List.enumFrom (n+1) rest).foldl
        (fun acc ip => acc ++ (if ip.1 > 0 then "\n" else "") ++ ip.2 ++ ":" ++ (mapGet files ip.2).hash)
        acc
      = acc ++ "\n" ++ specJoin (rest.map (rootLine files)) := by
  intro rest
  induction rest with
  | nil => intro n acc h; exact absurd rfl h
  | cons p rest ih =>
    intro n acc _
    cases rest with
    | nil =>
      simp [List.enumFrom, specJoin, rootLine, String.append_assoc]
    | cons q rest2 =>
      have step : List.enumFrom (n+1) (p :: q :: rest2) =
          (n+1, p) :: List.enumFrom (n+2) (q :: rest2) := rfl
      rw [step]
      simp only [List.foldl_cons]
      rw [ih (n+1) _ (by simp)]
      simp [specJoin, rootLine, String.append_assoc]

theorem computeRootHash_eq_spec (files : List (String × FileIR)) :
    ComputeRootHash files = HashBytes (strBytes (specRootInput files)) := by
  by_cases h : files.isEmpty
  · have he : files = [] := by
      cases files with
      | nil => rfl
      | cons x xs => simp [List.isEmpty] at h
    subst he
    rfl
  · have hne : files ≠ [] := by
      cases files with
      | nil => simp [List.isEmpty] at h
      | cons x xs => simp
    have hlen : (parser.sortStrings (mapKeys files)).length = (mapKeys files).length :=
      (parser.sortStrings_perm (mapKeys files)).length_eq
    have hkne : parser.sortStrings (mapKeys files) ≠ [] := by
      intro he
      rw [he] at hlen
      cases files with
      | nil => exact hne rfl
      | cons x xs => simp [mapKeys] at hlen
    cases hp : parser.sortStrings (mapKeys files) with
    | nil => exact absurd hp hkne
    | cons p rest =>
      simp only [ComputeRootHash, if_neg h, specRootInput, hp]
      cases rest with
      | nil =>
        simp [List.enum, List.enumFrom, specJoin, rootLine, String.append_assoc]
      | cons q rest2 =>
        have he : List.enum (p :: q :: rest2) =
            (0, p) :: List.enumFrom 1 (q :: rest2) := rfl
        rw [he]
        simp only [List.foldl_cons]
        rw [buildRoot_tail files (q :: rest2) 0 _ (by simp)]
        simp [specJoin, rootLine, String.append_assoc]

theorem mapFind_map_entry (g : FileIR → FileIR) :
    ∀ (files : List (String × FileIR)) (p : String),
      mapFind (files.map (fun pe => (pe.1, g pe.2))) p = (mapFind files p).map g := by
  intro files p
  induction files with
  | nil => rfl
  | cons x xs ih =>
    obtain ⟨k, v⟩ := x
    by_cases h : k = p
    · simp [mapFind, h]
    · simp [mapFind, h, ih]

theorem specRootInput_hash_invariant {g : FileIR → FileIR}
    (hg : ∀ e, (g e).hash = e.hash) (files : List (String × FileIR)) :
    specRootInput (files.map (fun pe => (pe.1, g pe.2))) = specRootInput files := by
  have hkeys : mapKeys (files.map (fun pe => (pe.1, g pe.2))) = mapKeys files := by
    simp [mapKeys]
  simp only [specRootInput, hkeys]
  congr 1
  apply List.map_congr_left
  intro p _
  simp only [rootLine, mapGet, mapFind_map_entry]
  cases mapFind files p with
  | none => rfl
  | some e => simp [hg e]

theorem parseFile_eq (c : String) : parseFile c = Except.ok (parseFileEntry c) := rfl

theorem mapFind_map_replace {k : String} {v : FileIR} :
    ∀ m : List (String × FileIR), (mapFind m k).isSome = true →
      mapFind (m.map (fun p => if p.1 = k then (k, v) else p)) k = some v := by
  intro m
  induction m with
  | nil => intro h; simp [mapFind] at h
  | cons x xs ih =>
    intro h
    obtain ⟨k1, v1⟩ := x
    by_cases hk : k1 = k
    · subst hk
      simp only [List.map_cons, if_pos rfl]
      simp [mapFind]
    · simp only [List.map_cons, if_neg hk]
      simp only [mapFind, if_neg hk]
      exact ih (by simpa [mapFind, hk] using h)

theorem mapFind_append {k : String} {v : FileIR} :
    ∀ m : List (String × FileIR), mapFind m k = none →
      mapFind (m ++ [(k, v)]) k = some v := by
  intro m
  induction m with
  | nil => intro _; simp [mapFind]
  | cons x xs ih =>
    intro h
    obtain ⟨k1, v1⟩ := x
    by_cases hk : k1 = k
    · simp [mapFind, hk] at h
    · simp only [mapFind, if_neg hk] at h
      simpa only [List.cons_append, mapFind, if_neg hk] using ih h

theorem mapFind_insert_self (m : List (String × FileIR)) (k : String) (v : FileIR) :
    mapFind (mapInsert m k v) k = some v := by
  unfold mapInsert
  by_cases h : (mapFind m k).isSome
  · rw [if_pos h]; exact mapFind_map_replace m h
  · rw [if_neg h]
    exact mapFind_append m (by
      cases hm : mapFind m k with
      | none => rfl
      | some e => rw [hm] at h; simp at h)

theorem mapFind_map_replace_other {k2 k : String} (hne : ¬(k = k2)) {v : FileIR} :
    ∀ m : List (String × FileIR),
      mapFind (m.map (fun p => if p.1 = k then (k, v) else p)) k2 = mapFind m k2 := by
  intro m
  induction m with
  | nil => rfl
  | cons x xs ih =>
    obtain ⟨k1, v1⟩ := x
    by_cases h1 : k1 = k
    · subst h1
      simp only [List.map_cons, if_pos rfl]
      simp only [mapFind, if_neg hne]
      exact ih
    · simp only [List.map_cons, if_neg h1]
      by_cases h2 : k1 = k2
      · simp [mapFind, h2]
      · simp only [mapFind, if_neg h2]
        exact ih

theorem mapFind_append_other {k2 k : String} (hne : ¬(k = k2)) {v : FileIR} :
    ∀ m : List (String × FileIR), mapFind (m ++ [(k, v)]) k2 = mapFind m k2 := by
  intro m
  induction m with
  | nil => simp only [List.nil_append, mapFind, if_neg hne]
  | cons x xs ih =>
    obtain ⟨k1, v1⟩ := x
    by_cases h2 : k1 = k2
    · simp [mapFind, h2]
    · simp only [List.cons_append, mapFind, if_neg h2]
      exact ih

theorem mapFind_insert_other {k2 k : String} (h : k2 ≠ k)
    (m : List (String × FileIR)) (v : FileIR) :
    mapFind (mapInsert m k v) k2 = mapFind m k2 := by
  have hne : ¬(k = k2) := fun e => h e.symm
  unfold mapInsert
  by_cases hs : (mapFind m k).isSome
  · rw [if_pos hs]
    exact mapFind_map_replace_other hne m
  · rw [if_neg hs]
    exact mapFind_append_other hne m

/-! ### Behavior of one `Update` callback iteration -/

theorem updateStep_find_other {k : String} {pc : String × String}
    (h : k ≠ normalizePath pc.1) (prior m : List (String × FileIR)) :
    mapFind (updateStep prior m pc) k = mapFind m k := by
  simp only [updateStep, parseFile_eq]
  cases mapFind prior (normalizePath pc.1) with
  | none => exact mapFind_insert_other h m _
  | some e =>
    show mapFind (if e.hash = HashBytes (strBytes pc.2)
      then mapInsert m (normalizePath pc.1) e
      else mapInsert m (normalizePath pc.1) (parseFileEntry pc.2)) k = mapFind m k
    by_cases hh : e.hash = HashBytes (strBytes pc.2)
    · rw [if_pos hh]
      exact mapFind_insert_other h m e
    · rw [if_neg hh]
      exact mapFind_insert_other h m _

theorem updateStep_find_self_reuse {pc : String × String} {e : FileIR}
    (prior m : List (String × FileIR))
    (hfind : mapFind prior (normalizePath pc.1) = some e)
    (hhash : e.hash = HashBytes (strBytes pc.2)) :
    mapFind (updateStep prior m pc) (normalizePath pc.1) = some e := by
  simp only [updateStep, parseFile_eq, hfind]
  rw [if_pos hhash]
  exact mapFind_insert_self m _ e

theorem updateStep_find_self_fresh {pc : String × String}
    (prior m : List (String × FileIR))
    (hfresh : ∀ e, mapFind prior (normalizePath pc.1) = some e →
      e.hash ≠ HashBytes (strBytes pc.2)) :
    mapFind (updateStep prior m pc) (normalizePath pc.1) = some (parseFileEntry pc.2) := by
  simp only [updateStep, parseFile_eq]
  cases hp : mapFind prior (normalizePath pc.1) with
  | none => exact mapFind_insert_self m _ _
  | some e =>
    show mapFind (if e.hash = HashBytes (strBytes pc.2)
      then mapInsert m (normalizePath pc.1) e
      else mapInsert m (normalizePath pc.1) (parseFileEntry pc.2)) (normalizePath pc.1)
      = some (parseFileEntry pc.2)
    rw [if_neg (hfresh e hp)]
    exact mapFind_insert_self m _ _

/-! ### Behavior of the whole `Update` fold -/

theorem updateVisits_find_not_visited (prior : List (String × FileIR)) :
    ∀ (vs : List (String × String)) (m0 : List (String × FileIR)) (k : String),
      k ∉ vs.map (fun pc => normalizePath pc.1) →
      mapFind (vs.foldl (updateStep prior) m0) k = mapFind m0 k := by
  intro vs
  induction vs with
  | nil => intro m0 k _; rfl
  | cons v vs ih =>
    intro m0 k hk
    simp only [List.map_cons, List.mem_cons, not_or] at hk
    simp only [List.foldl_cons]
    rw [ih _ _ hk.2, updateStep_find_other hk.1]

theorem updateVisits_find_reuse (prior : List (String × FileIR)) :
    ∀ (vs : List (String × String)) (m0 : List (String × FileIR)) {p c : String}
      {e : FileIR},
      (vs.map (fun pc => normalizePath pc.1)).Nodup →
      (p, c) ∈ vs →
      mapFind prior (normalizePath p) = some e →
      e.hash = HashBytes (strBytes c) →
      mapFind (vs.foldl (updateStep prior) m0) (normalizePath p) = some e := by
  intro vs
  induction vs with
  | nil => intro m0 p c e _ hm; simp at hm
  | cons v vs ih =>
    intro m0 p c e hnd hm hfind hhash
    simp only [List.map_cons, List.nodup_cons] at hnd
    simp only [List.foldl_cons]
    rcases List.mem_cons.1 hm with rfl | hm2
    · rw [updateVisits_find_not_visited prior vs _ _ hnd.1]
      exact updateStep_find_self_reuse prior m0 hfind hhash
    · exact ih _ hnd.2 hm2 hfind hhash

theorem updateVisits_find_fresh (prior : List (String × FileIR)) :
    ∀ (vs : List (String × String)) (m0 : List (String × FileIR)) {p c : String},
      (vs.map (fun pc => normalizePath pc.1)).Nodup →
      (p, c) ∈ vs →
      (∀ e, mapFind prior (normalizePath p) = some e →
        e.hash ≠ HashBytes (strBytes c)) →
      mapFind (vs.foldl (updateStep prior) m0) (normalizePath p) =
        some (parseFileEntry c) := by
  intro vs
  induction vs with
  | nil => intro m0 p c _ hm; simp at hm
  | cons v vs ih =>
    intro m0 p c hnd hm hfresh
    simp only [List.map_cons, List.nodup_cons] at hnd
    simp only [List.foldl_cons]
    rcases List.mem_cons.1 hm with rfl | hm2
    · rw [updateVisits_find_not_visited prior vs _ _ hnd.1]
      exact updateStep_find_self_fresh prior m0 hfresh
    · exact ih _ hnd.2 hm2 hfresh

/-! ### Helper lemmas for the serializer claims -/

theorem mapKeys_rebuilt (m : List (String × FileIR)) (ks : List String) :
    mapKeys (ks.map (fun k => (k, mapGet m k))) = ks := by
  induction ks with
  | nil => rfl
  | cons a as ih => simpa [mapKeys] using ih

theorem mapFind_rebuilt (m : List (String × FileIR)) :
    ∀ (ks : List String) (k : String), k ∈ ks →
      mapFind (ks.map (fun k => (k, mapGet m k))) k = some (mapGet m k) := by
  intro ks
  induction ks with
  | nil => intro k hk; simp at hk
  | cons k1 rest ih =>
    intro k hk
    by_cases h : k1 = k
    · subst h
      simp [mapFind]
    · rcases List.mem_cons.1 hk with rfl | hk2
      · exact absurd rfl h
      · simp only [List.map_cons, mapFind, if_neg h]
        exact ih k hk2

theorem mapGet_rebuilt (m : List (String × FileIR)) (ks : List String) (k : String)
    (hk : k ∈ ks) :
    mapGet (ks.map (fun k => (k, mapGet m k))) k = mapGet m k := by
  show (mapFind (ks.map (fun k => (k, mapGet m k))) k).getD zeroFileIR = mapGet m k
  rw [mapFind_rebuilt m ks k hk]
  rfl

theorem mapFind_eq_some_of_mem {m : List (String × FileIR)} {k : String} {v : FileIR}
    (hnd : keysNodup m) (hm : (k, v) ∈ m) : mapFind m k = some v := by
  induction m with
  | nil => simp at hm
  | cons x xs ih =>
    obtain ⟨k1, v1⟩ := x
    simp only [keysNodup, List.map_cons, List.nodup_cons] at hnd
    rcases List.mem_cons.1 hm with he | hm2
    · cases he
      simp [mapFind]
    · have hk1 : k1 ≠ k := by
        intro e
        subst e
        exact hnd.1 (List.mem_map.2 ⟨(k1, v), hm2, rfl⟩)
      simp only [mapFind, if_neg hk1]
      exact ih hnd.2 hm2

theorem mapFind_mem {m : List (String × FileIR)} {k : String} {v : FileIR}
    (h : mapFind m k = some v) : (k, v) ∈ m := by
  induction m with
  | nil => simp [mapFind] at h
  | cons x xs ih =>
    obtain ⟨k1, v1⟩ := x
    by_cases hk : k1 = k
    · subst hk
      have hfind : mapFind ((k1, v1) :: xs) k1 = some v1 := by
        simp only [mapFind]
        exact if_pos trivial
      rw [hfind] at h
      obtain rfl := Option.some_inj.1 h
      exact List.mem_cons_self _ _
    · simp only [mapFind, if_neg hk] at h
      exact List.mem_cons_of_mem _ (ih h)

theorem mapFind_none_iff {m : List (String × FileIR)} {k : String} :
    mapFind m k = none ↔ k ∉ mapKeys m := by
  induction m with
  | nil => simp [mapFind, mapKeys]
  | cons x xs ih =>
    obtain ⟨k1, v1⟩ := x
    by_cases hk : k1 = k
    · subst hk
      simp [mapFind, mapKeys]
    · have hk2 : ¬(k = k1) := fun e => hk e.symm
      simp only [mapFind, if_neg hk, ih, mapKeys, List.map_cons, List.mem_cons, not_or]
      exact ⟨fun h => ⟨hk2, h⟩, fun h => h.2⟩

theorem keysNodup_perm {m1 m2 : List (String × FileIR)} (hp : List.Perm m1 m2)
    (hnd : keysNodup m1) : keysNodup m2 :=
  ((hp.map Prod.fst).nodup_iff).1 hnd

theorem mapFind_perm {m1 m2 : List (String × FileIR)} (hp : List.Perm m1 m2)
    (hnd : keysNodup m1) (k : String) : mapFind m1 k = mapFind m2 k := by
  cases h : mapFind m1 k with
  | some v =>
    exact (mapFind_eq_some_of_mem (keysNodup_perm hp hnd) (hp.mem_iff.1 (mapFind_mem h))).symm
  | none =>
    have hk : k ∉ mapKeys m2 := by
      intro hmem
      exact (mapFind_none_iff.1 h) ((hp.map Prod.fst).mem_iff.2 hmem)
    exact (mapFind_none_iff.2 hk).symm

theorem sortKeys_perm_eq {m1 m2 : List (String × FileIR)} (hp : List.Perm m1 m2) :
    parser.sortStrings (mapKeys m1) = parser.sortStrings (mapKeys m2) :=
  @List.eq_of_perm_of_sorted String parser.strOrd inferInstance _ _
    ((parser.sortStrings_perm _).trans ((hp.map Prod.fst).trans
      (parser.sortStrings_perm _).symm))
    (parser.sortStrings_sorted _)
    (parser.sortStrings_sorted _)

theorem encFilesObj_rebuilt (m : List (String × FileIR)) :
    encFilesObj "  " ((parser.sortStrings (mapKeys m)).map (fun k => (k, mapGet m k))) =
      (if m.isEmpty then "\x7b\x7d"
       else
         "\x7b\n" ++
         joinSep ",\n" ((parser.sortStrings (mapKeys m)).map (fun k =>
           "    " ++ jsonStr k ++ ": " ++ encFileIR "    " (mapGet m k))) ++
         "\n  \x7d") := by
  have hlen : (parser.sortStrings (mapKeys m)).length = m.length := by
    rw [(parser.sortStrings_perm (mapKeys m)).length_eq]
    simp [mapKeys]
  by_cases he : m.isEmpty
  · have hm : m = [] := by
      cases m with
      | nil => rfl
      | cons x xs => simp [List.isEmpty] at he
    subst hm
    rfl
  · rw [if_neg he]
    have hkne : parser.sortStrings (mapKeys m) ≠ [] := by
      intro h0
      rw [h0] at hlen
      cases m with
      | nil => simp [List.isEmpty] at he
      | cons x xs => simp at hlen
    unfold encFilesObj
    have hne2 : ((parser.sortStrings (mapKeys m)).map (fun k => (k, mapGet m k))).isEmpty
        = false := by
      cases hc : parser.sortStrings (mapKeys m) with
      | nil => exact absurd hc hkne
      | cons a as => simp [hc, List.isEmpty]
    rw [hne2]
    simp only [Bool.false_eq_true, if_false, mapKeys_rebuilt,
      parser.sortStrings_of_sorted (parser.sortStrings_sorted (mapKeys m))]
    have hmap : (parser.sortStrings (mapKeys m)).map (fun k =>
        "  " ++ "  " ++ jsonStr k ++ ": " ++ encFileIR ("  " ++ "  ")
          (mapGet ((parser.sortStrings (mapKeys m)).map (fun k => (k, mapGet m k))) k)) =
        (parser.sortStrings (mapKeys m)).map (fun k =>
          "    " ++ jsonStr k ++ ": " ++ encFileIR "    " (mapGet m k)) := by
      apply List.map_congr_left
      intro k hk
      rw [mapGet_rebuilt m _ k hk]
      rfl
    rw [hmap]
    simp only [String.append_assoc]
    rfl

theorem marshal_eq_spec (x : IR) : MarshalJSON x = specSerialize x := by
  simp only [MarshalJSON, specSerialize]
  rw [encFilesObj_rebuilt x.files]

theorem marshal_perm {v : Nat} {rh : String} {m1 m2 : List (String × FileIR)}
    (hnd : keysNodup m1) (hp : List.Perm m1 m2) :
    MarshalJSON ⟨v, rh, m1⟩ = MarshalJSON ⟨v, rh, m2⟩ := by
  simp only [MarshalJSON]
  have hkeys : parser.sortStrings (mapKeys m1) = parser.sortStrings (mapKeys m2) :=
    sortKeys_perm_eq hp
  have hget : ∀ k, mapGet m1 k = mapGet m2 k := by
    intro k
    unfold mapGet
    rw [mapFind_perm hp hnd k]
  simp only [hkeys]
  have hmap : (parser.sortStrings (mapKeys m2)).map (fun k => (k, mapGet m1 k)) =
      (parser.sortStrings (mapKeys m2)).map (fun k => (k, mapGet m2 k)) := by
    apply List.map_congr_left
    intro k _
    rw [hget k]
  rw [hmap]

/-! ### Helper lemmas for the path-normalization claim -/

theorem lookupPair_mem :
    ∀ (tbl : List ((Char × Char) × Char)) (c1 c2 comp : Char),
      lookupPair tbl c1 c2 = some comp → comp ∈ tbl.map Prod.snd := by
  intro tbl
  induction tbl with
  | nil => intro c1 c2 comp h; simp [lookupPair] at h
  | cons kv rest ih =>
    intro c1 c2 comp h
    obtain ⟨k, v⟩ := kv
    simp only [lookupPair] at h
    by_cases hc : (k.1 = c1 && k.2 = c2) = true
    · rw [if_pos hc] at h
      obtain rfl := Option.some_inj.1 h
      exact List.mem_cons_self _ _
    · rw [if_neg hc] at h
      exact List.mem_cons_of_mem _ (ih c1 c2 comp h)

theorem nfcAux_chars :
    ∀ (fuel : Nat) (cs : List Char) (c : Char),
      c ∈ nfcAux fuel cs → c ∈ cs ∨ c ∈ composeTable.map Prod.snd := by
  intro fuel
  induction fuel with
  | zero => intro cs c hc; exact Or.inl hc
  | succ n ih =>
    intro cs c hc
    cases cs with
    | nil => simp [nfcAux] at hc
    | cons c1 rest =>
      cases rest with
      | nil =>
        simp only [nfcAux] at hc
        exact Or.inl hc
      | cons c2 rest2 =>
        simp only [nfcAux] at hc
        cases hl : lookupPair composeTable c1 c2 with
        | some comp =>
          simp only [hl] at hc
          rcases ih _ c hc with hm | hm
          · rcases List.mem_cons.1 hm with rfl | hm2
            · exact Or.inr (lookupPair_mem _ _ _ _ hl)
            · exact Or.inl (by simp [hm2])
          · exact Or.inr hm
        | none =>
          simp only [hl] at hc
          rcases List.mem_cons.1 hc with rfl | hc2
          · exact Or.inl (List.mem_cons_self _ _)
          · rcases ih _ c hc2 with hm | hm
            · exact Or.inl (List.mem_cons_of_mem _ (List.mem_cons.2 (by
                rcases List.mem_cons.1 hm with rfl | hm3
                · exact Or.inl rfl
                · exact Or.inr hm3)))
            · exact Or.inr hm

end ir

/-! ### Character facts for the named-export claim -/

theorem wordChar_toNat_le {x : Char} (h : isWordChar x = true) : x.toNat ≤ 122 := by
  unfold isWordChar at h
  unfold Char.isAlphanum Char.isAlpha Char.isUpper Char.isLower Char.isDigit at h
  simp only [Bool.or_eq_true, Bool.and_eq_true, decide_eq_true_eq, or_assoc] at h
  rcases h with ⟨h1, h2⟩ | ⟨h1, h2⟩ | ⟨h1, h2⟩ | h
  · have h3 : x.toNat ≤ 90 := h2
    omega
  · have h3 : x.toNat ≤ 122 := h2
    omega
  · have h3 : x.toNat ≤ 57 := h2
    omega
  · subst h
    decide

theorem wordChar_c8_facts {x : Char} (h : isWordChar x = true) :
    notCloseBrace x = true ∧ parser.isSpaceGo x = false ∧ ¬(x = ',') ∧ ¬(x = '\n') ∧
      isSpaceRE x = false := by
  refine ⟨?_, ?_, ?_, ?_, ?_⟩
  · by_cases he : x = '\x7d'
    · subst he; exact absurd h (by decide)
    · simp [notCloseBrace, he]
  · cases hsg : parser.isSpaceGo x
    · rfl
    · exfalso
      have hle := wordChar_toNat_le h
      simp only [parser.isSpaceGo, Bool.or_eq_true, Bool.and_eq_true, decide_eq_true_eq,
        or_assoc] at hsg
      rcases hsg with h2|h2|h2|h2|h2|h2|h2|h2|h2|h2|h2|h2|h2|h2|h2 <;>
        first
          | (subst h2; exact absurd h (by decide))
          | omega
  · intro he; subst he; exact absurd h (by decide)
  · intro he; subst he; exact absurd h (by decide)
  · cases hsr : isSpaceRE x
    · rfl
    · exfalso
      simp only [isSpaceRE, Bool.or_eq_true, decide_eq_true_eq, or_assoc] at hsr
      rcases hsr with h2|h2|h2|h2|h2 <;> (subst h2; exact absurd h (by decide))

theorem wordChar_ne {x d : Char} (h : isWordChar x = true)
    (hd : isWordChar d = false) : ¬(x = d) := by
  intro e
  subst e
  rw [h] at hd
  exact absurd hd (by decide)

theorem wordChar_ne2 {x d : Char} (h : isWordChar x = true)
    (hd : isWordChar d = false) : ¬(d = x) :=
  fun e => wordChar_ne h hd e.symm

/-! ## The claims -/

/-- **C2**: `ComputeRootHash` sorts the canonical paths ascending,
builds the newline-joined `path:hash` string with no trailing newline,
and returns `HashBytes` of that string's UTF-8 bytes; the empty map
gives `HashBytes` of the empty byte sequence; and the result depends
only on the `(path, hash)` pairs, not on any symbol list. -/
theorem c2_computeRootHash_spec (files : List (String × ir.FileIR)) :
    ir.ComputeRootHash files = ir.HashBytes (ir.strBytes (ir.specRootInput files)) ∧
    ir.ComputeRootHash [] = ir.HashBytes [] ∧
    (∀ g : ir.FileIR → ir.FileIR, (∀ e, (g e).hash = e.hash) →
      ir.ComputeRootHash (files.map (fun pe => (pe.1, g pe.2))) = ir.ComputeRootHash files) := by
  refine ⟨ir.computeRootHash_eq_spec files, rfl, ?_⟩
  intro g hg
  rw [ir.computeRootHash_eq_spec, ir.computeRootHash_eq_spec,
    ir.specRootInput_hash_invariant hg]

/-- Witness for C2 at a concrete two-entry map, with the symbol-list
replacement hypothesis discharged on a concrete replacement. -/
theorem c2_computeRootHash_spec_witness :
    ir.ComputeRootHash
        [("b.ts", ir.FileIR.mk "beef" (some ["react"]) (some ["f"]) (some []) (some ["f"])),
         ("a.ts", ir.FileIR.mk "cafe" (some []) none (some ["C"]) (some []))] =
      ir.HashBytes (ir.strBytes (ir.specRootInput
        [("b.ts", ir.FileIR.mk "beef" (some ["react"]) (some ["f"]) (some []) (some ["f"])),
         ("a.ts", ir.FileIR.mk "cafe" (some []) none (some ["C"]) (some []))])) ∧
    ir.ComputeRootHash
        ([("b.ts", ir.FileIR.mk "beef" (some ["react"]) (some ["f"]) (some []) (some ["f"])),
          ("a.ts", ir.FileIR.mk "cafe" (some []) none (some ["C"]) (some []))].map
          (fun pe => (pe.1, ir.FileIR.mk pe.2.hash none none none (some ["changed"])))) =
      ir.ComputeRootHash
        [("b.ts", ir.FileIR.mk "beef" (some ["react"]) (some ["f"]) (some []) (some ["f"])),
         ("a.ts", ir.FileIR.mk "cafe" (some []) none (some ["C"]) (some []))] :=
  ⟨(c2_computeRootHash_spec _).1,
   (c2_computeRootHash_spec _).2.2
     (fun e => ir.FileIR.mk e.hash none none none (some ["changed"])) (fun _ => rfl)⟩

/-- **C3, counterexample**: the claim says a function declared inside
another function's body is invisible to the extractor; but the flat
scans match the nested declaration (it is preceded by whitespace), so
`Parse` does include `inner` for
`function outer() { function inner() {} }`. -/
theorem c3_nested_function_extracted :
    "inner" ∈ (parser.parseStructure
      "function outer() \x7b function inner() \x7b\x7d \x7d").functions := by
  decide

/-- **C3, amended**: the extractor has no scope awareness at all — its
flat scans match declarations nested inside other bodies whenever the
lexical pattern matches (in particular whenever `function`/`class` is
preceded by whitespace), so nested declarations are extracted exactly
like top-level ones. -/
theorem c3_flat_scan_sees_nested :
    (parser.parseStructure
        "function outer() \x7b function inner() \x7b\x7d \x7d").functions =
      ["inner", "outer"] ∧
    (parser.parseStructure
        "function f() \x7b class Inner \x7b\x7d \x7d").classes = ["Inner"] := by
  constructor <;> rfl

/-- **C1** (the code, at the claim's failing input): a root that does
not exist is not a fatal error for `Generate` — `filepath.Abs` does not
check existence, and the walk callback swallows the root `lstat` error
with a printed warning, so the call returns a successful empty
representation (version 1, empty files map, root hash of the empty
byte sequence).  The only fatal path is a failure of absolute-path
resolution itself (an unobtainable working directory). -/
theorem c1_nonexistent_root_returns_ok :
    ir.Generate [] (.ok none) = .ok ⟨1, ir.HashBytes [], []⟩ ∧
    ir.Generate [] (.error "getwd failed") =
      .error "failed to resolve absolute path: getwd failed" :=
  ⟨rfl, rfl⟩

/-- **C4**: `Update` reuses a prior File Entry verbatim when the file's
current content hash equals the prior entry's hash at the same
canonical path; a file whose hash differs (or has no prior entry) is
freshly parsed; paths not visited by the walk (prior-only files) are
absent from the result; and the root fingerprint is recomputed from the
final entry set.  Stated over the visit list of the walk, with the
walk's normalized paths assumed collision-free (the Go map has unique
keys). -/
theorem c4_update_incremental (ign : List String) (prior : ir.IR) (t : ir.FSEntry)
    (vs : List (String × String))
    (hvs : vs = ir.walkRoot (ir.generatorIgnored ign) t)
    (hnd : (vs.map (fun pc => ir.normalizePath pc.1)).Nodup) :
    (ir.Update ign prior (.ok (some t)) =
      .ok ⟨1, ir.ComputeRootHash (ir.updateVisits prior.files vs),
           ir.updateVisits prior.files vs⟩) ∧
    (∀ (p c : String) (e : ir.FileIR), (p, c) ∈ vs →
      ir.mapFind prior.files (ir.normalizePath p) = some e →
      e.hash = ir.HashBytes (ir.strBytes c) →
      ir.mapFind (ir.updateVisits prior.files vs) (ir.normalizePath p) = some e) ∧
    (∀ p c : String, (p, c) ∈ vs →
      (∀ e, ir.mapFind prior.files (ir.normalizePath p) = some e →
        e.hash ≠ ir.HashBytes (ir.strBytes c)) →
      ir.mapFind (ir.updateVisits prior.files vs) (ir.normalizePath p) =
        some (ir.parseFileEntry c)) ∧
    (∀ k : String, k ∉ vs.map (fun pc => ir.normalizePath pc.1) →
      ir.mapFind (ir.updateVisits prior.files vs) k = none) := by
  subst hvs
  refine ⟨rfl, ?_, ?_, ?_⟩
  · intro p c e hm hf hh
    exact ir.updateVisits_find_reuse prior.files _ [] hnd hm hf hh
  · intro p c hm hfr
    exact ir.updateVisits_find_fresh prior.files _ [] hnd hm hfr
  · intro k hk
    exact ir.updateVisits_find_not_visited prior.files _ [] k hk

/-- Witness for C4: a two-file tree where `a.js` is unchanged from the
prior run (its entry is reused), `b.js` is new (freshly parsed), and
the prior-only `gone.js` is dropped. -/
theorem c4_update_incremental_witness :
    ir.mapFind
        (ir.updateVisits
          [("a.js", ir.parseFileEntry "function a() \x7b\x7d"),
           ("gone.js", ir.parseFileEntry "function g() \x7b\x7d")]
          [("a.js", "function a() \x7b\x7d"), ("b.js", "function b() \x7b\x7d")])
        (ir.normalizePath "a.js") =
      some (ir.parseFileEntry "function a() \x7b\x7d") ∧
    ir.mapFind
        (ir.updateVisits
          [("a.js", ir.parseFileEntry "function a() \x7b\x7d"),
           ("gone.js", ir.parseFileEntry "function g() \x7b\x7d")]
          [("a.js", "function a() \x7b\x7d"), ("b.js", "function b() \x7b\x7d")])
        (ir.normalizePath "b.js") =
      some (ir.parseFileEntry "function b() \x7b\x7d") ∧
    ir.mapFind
        (ir.updateVisits
          [("a.js", ir.parseFileEntry "function a() \x7b\x7d"),
           ("gone.js", ir.parseFileEntry "function g() \x7b\x7d")]
          [("a.js", "function a() \x7b\x7d"), ("b.js", "function b() \x7b\x7d")])
        "gone.js" = none := by
  have h := c4_update_incremental []
    ⟨1, "prior",
      [("a.js", ir.parseFileEntry "function a() \x7b\x7d"),
       ("gone.js", ir.parseFileEntry "function g() \x7b\x7d")]⟩
    (.dir "p" [.file "a.js" "function a() \x7b\x7d", .file "b.js" "function b() \x7b\x7d"])
    [("a.js", "function a() \x7b\x7d"), ("b.js", "function b() \x7b\x7d")]
    (by decide) (by decide)
  refine ⟨?_, ?_, ?_⟩
  · exact h.2.1 "a.js" "function a() \x7b\x7d" _ (by decide) rfl rfl
  · exact h.2.2.1 "b.js" "function b() \x7b\x7d" (by decide) (fun e he => nomatch he)
  · exact h.2.2.2 "gone.js" (by decide)

/-- **C10**: when two distinct on-disk files normalize to the same
canonical path (NFD vs NFC spellings of `café.ts`), `Generate` records
exactly one File Entry under the composed key, the entry of the file
visited later (the NFC-named one, which sorts after the NFD-named one)
silently overwrites the earlier one, and no error is reported; and a
map insert at an existing key always overwrites. -/
theorem c10_collision_last_wins :
    ir.Generate [] (.ok (some (.dir "p"
        [.file "caf\u00e9.ts" "const first = 1;",
         .file "cafe\u0301.ts" "const second = 2;"]))) =
      .ok ⟨1, ir.ComputeRootHash [("caf\u00e9.ts", ir.parseFileEntry "const first = 1;")],
           [("caf\u00e9.ts", ir.parseFileEntry "const first = 1;")]⟩ ∧
    (∀ (m : List (String × ir.FileIR)) (k : String) (v : ir.FileIR),
      ir.mapFind (ir.mapInsert m k v) k = some v) := by
  constructor
  · rfl
  · exact ir.mapFind_insert_self

/-- **C5**: serialization emits the fields in the fixed order
`version`, `root_hash`, `files` with the keys of `files` in strictly
ascending lexicographic order whatever the in-memory order
(`MarshalJSON` coincides with the specification-shaped serializer),
and two serializations of equal representations — here: files maps
that are permutations of each other — are byte-identical. -/
theorem c5_serialize_deterministic (v : Nat) (rh : String)
    (m1 m2 : List (String × ir.FileIR))
    (hnd : ir.keysNodup m1) (hperm : List.Perm m1 m2) :
    ir.MarshalJSON ⟨v, rh, m1⟩ = ir.specSerialize ⟨v, rh, m1⟩ ∧
    ir.MarshalJSON ⟨v, rh, m1⟩ = ir.MarshalJSON ⟨v, rh, m2⟩ :=
  ⟨ir.marshal_eq_spec _, ir.marshal_perm hnd hperm⟩

/-- Witness for C5: a two-entry map serialized from both of its
orderings. -/
theorem c5_serialize_deterministic_witness :
    ir.MarshalJSON ⟨1, "r",
        [("b.ts", ir.FileIR.mk "h1" (some ["x"]) none (some []) (some ["e"])),
         ("a.ts", ir.FileIR.mk "h2" (some []) (some ["f"]) none (some []))]⟩ =
      ir.specSerialize ⟨1, "r",
        [("b.ts", ir.FileIR.mk "h1" (some ["x"]) none (some []) (some ["e"])),
         ("a.ts", ir.FileIR.mk "h2" (some []) (some ["f"]) none (some []))]⟩ ∧
    ir.MarshalJSON ⟨1, "r",
        [("b.ts", ir.FileIR.mk "h1" (some ["x"]) none (some []) (some ["e"])),
         ("a.ts", ir.FileIR.mk "h2" (some []) (some ["f"]) none (some []))]⟩ =
      ir.MarshalJSON ⟨1, "r",
        [("a.ts", ir.FileIR.mk "h2" (some []) (some ["f"]) none (some [])),
         ("b.ts", ir.FileIR.mk "h1" (some ["x"]) none (some []) (some ["e"]))]⟩ :=
  c5_serialize_deterministic 1 "r" _ _ (by decide) (by decide)

/-- **C7**: path normalization leaves no platform separator in the
canonical string (shown for the Windows separator `\`; on `/` the
conversion is the identity), strips exactly one leading `./`, and
NFC-normalizes, so the composed and decomposed spellings of `café.ts`
yield the identical canonical string. -/
theorem c7_normalizePath_unicode (p : String) :
    '\\' ∉ (ir.normalizePathOn '\\' p).data ∧
    ir.normalizePathOn '/' "././x.ts" = "./x.ts" ∧
    ir.normalizePathOn '\\' ".\\sub\\cafe\u0301.ts" = "sub/caf\u00e9.ts" ∧
    ir.normalizePathOn '/' "cafe\u0301.ts" = ir.normalizePathOn '/' "caf\u00e9.ts" := by
  refine ⟨?_, rfl, rfl, rfl⟩
  intro hc
  rcases ir.nfcAux_chars _ _ _ hc with h1 | h1
  · have h2 : '\\' ∈ (ir.toSlash '\\' p).data := by
      unfold ir.stripDotSlash at h1
      split at h1
      · exact List.drop_subset _ _ h1
      · exact h1
    obtain ⟨c, _, hc2⟩ := List.mem_map.1 h2
    by_cases he : c = '\\'
    · rw [if_pos he] at hc2
      exact absurd hc2 (by decide)
    · rw [if_neg he] at hc2
      exact he hc2
  · exact absurd h1 (by decide)

/-- **C9, counterexample**: the claim says `Load` yields omitted list
fields as empty sequences; in fact decoding leaves them at the Go zero
value, a `nil` slice (`none` in the model), which is not an empty
sequence. -/
theorem c9_load_omitted_gives_nil :
    ir.Load (some (.jobj [("version", .jnum 1), ("root_hash", .jstr "r"),
        ("files", .jobj [("a.js", .jobj [("hash", .jstr "h")])])])) =
      .ok ⟨1, "r", [("a.js", ir.FileIR.mk "h" none none none none)]⟩ ∧
    (ir.FileIR.mk "h" none none none none).imports ≠ some [] :=
  ⟨rfl, by decide⟩

/-- **C9, amended**: `Load` does succeed when optional list fields are
omitted, but the fields come back as Go `nil` slices: they read as
length-zero sequences, while re-serialization renders them as `null`,
not `[]`. -/
theorem c9_load_omitted_amended :
    ir.Load (some (.jobj [("version", .jnum 1), ("root_hash", .jstr "r"),
        ("files", .jobj [("b.js", .jobj [("hash", .jstr "h2")])])])) =
      .ok ⟨1, "r", [("b.js", ir.FileIR.mk "h2" none none none none)]⟩ ∧
    ir.encStrArr "      " none = "null" ∧
    (none : Option (List String)).getD [] = [] :=
  ⟨rfl, rfl, rfl⟩

theorem wordChar_not_spaceGo {x : Char} (h : isWordChar x = true) :
    parser.isSpaceGo x = false :=
  (wordChar_c8_facts h).2.1

theorem trimSpaceGo_of_dropWhile {l : List Char}
    (d1 : l.dropWhile parser.isSpaceGo = l)
    (d2 : l.reverse.dropWhile parser.isSpaceGo = l.reverse) :
    parser.trimSpaceGo l = l := by
  rw [parser.trimSpaceGo, d1, d2, List.reverse_reverse]

theorem trimSpaceGo_all_wordlike {l : List Char}
    (h : ∀ a ∈ l, isWordChar a = true) : parser.trimSpaceGo l = l := by
  have d1 : l.dropWhile parser.isSpaceGo = l := by
    cases l with
    | nil => rfl
    | cons x rest =>
      rw [List.dropWhile_cons,
        if_neg (by simp [wordChar_not_spaceGo (h x (List.mem_cons_self x rest))])]
  have d2 : l.reverse.dropWhile parser.isSpaceGo = l.reverse := by
    cases hr : l.reverse with
    | nil => rfl
    | cons x rest =>
      have hx : x ∈ l := List.mem_reverse.1 (by rw [hr]; exact List.mem_cons_self x rest)
      rw [List.dropWhile_cons, if_neg (by simp [wordChar_not_spaceGo (h x hx)])]
  exact trimSpaceGo_of_dropWhile d1 d2

theorem findSub_cons_eq (pat rest : List Char) (c : Char) :
    parser.findSub pat (c :: rest) =
      (if pat.isPrefixOf (c :: rest) then some ([], (c :: rest).drop pat.length)
       else
         match parser.findSub pat rest with
         | some (pre, post) => some (c :: pre, post)
         | none => none) := rfl

theorem findSub_as_split (cs : List Char) :
    ∀ bs : List Char, bs ≠ [] → (∀ x ∈ bs, isWordChar x = true) →
      parser.findSub [' ', 'a', 's', ' '] (bs ++ ' ' :: 'a' :: 's' :: ' ' :: cs) =
        some (bs, cs) := by
  intro bs
  induction bs with
  | nil => intro h _; exact absurd rfl h
  | cons x bs2 ih =>
    intro _ hw
    have hx : (' ' == x) = false :=
      beq_eq_false_iff_ne.2 (wordChar_ne2 (hw x (List.mem_cons_self x bs2)) (by decide))
    have hpre : List.isPrefixOf [' ', 'a', 's', ' ']
        (x :: (bs2 ++ ' ' :: 'a' :: 's' :: ' ' :: cs)) = false := by
      simp only [List.isPrefixOf, hx, Bool.false_and]
    rw [List.cons_append, findSub_cons_eq, if_neg (by simp [hpre])]
    cases bs2 with
    | nil =>
      have base : parser.findSub [' ', 'a', 's', ' '] (' ' :: 'a' :: 's' :: ' ' :: cs) =
          some ([], cs) := by
        rw [findSub_cons_eq, if_pos (by simp [List.isPrefixOf])]
        simp
      rw [List.nil_append, base]
    | cons y bs3 =>
      have hrec := ih (by simp) (fun z hz => hw z (List.mem_cons_of_mem x hz))
      rw [List.cons_append] at hrec
      rw [List.cons_append, hrec]

theorem namedEntryName_as {bs cs : List Char}
    (hbs : bs ≠ []) (hcs : cs ≠ [])
    (hbsw : ∀ x ∈ bs, isWordChar x = true) (hcsw : ∀ x ∈ cs, isWordChar x = true) :
    parser.namedEntryName (bs ++ ' ' :: 'a' :: 's' :: ' ' :: cs) = bs := by
  obtain ⟨x, bs2, rfl⟩ : ∃ x bs2, bs = x :: bs2 := by
    cases bs with
    | nil => exact absurd rfl hbs
    | cons x bs2 => exact ⟨x, bs2, rfl⟩
  rcases List.eq_nil_or_concat cs with rfl | ⟨L, z, rfl⟩
  · exact absurd rfl hcs
  · have hxw : isWordChar x = true := hbsw x (List.mem_cons_self x bs2)
    have hzw : isWordChar z = true := hcsw z (by simp [List.concat_eq_append])
    have d1 : ((x :: bs2) ++ ' ' :: 'a' :: 's' :: ' ' :: L.concat z).dropWhile
        parser.isSpaceGo = (x :: bs2) ++ ' ' :: 'a' :: 's' :: ' ' :: L.concat z := by
      rw [List.cons_append, List.dropWhile_cons, if_neg (by simp [wordChar_not_spaceGo hxw])]
    have d2 : ((x :: bs2) ++ ' ' :: 'a' :: 's' :: ' ' :: L.concat z).reverse.dropWhile
        parser.isSpaceGo = ((x :: bs2) ++ ' ' :: 'a' :: 's' :: ' ' :: L.concat z).reverse := by
      have hnm : (x :: bs2) ++ ' ' :: 'a' :: 's' :: ' ' :: L.concat z =
          ((x :: bs2) ++ [' ', 'a', 's', ' '] ++ L) ++ [z] := by
        simp [List.concat_eq_append]
      rw [hnm, List.reverse_append, List.reverse_singleton, List.singleton_append,
        List.dropWhile_cons, if_neg (by simp [wordChar_not_spaceGo hzw])]
    have ht := trimSpaceGo_of_dropWhile d1 d2
    have hf := findSub_as_split (L.concat z) (x :: bs2) (by simp) hbsw
    simp only [parser.namedEntryName, ht, hf]
    exact trimSpaceGo_all_wordlike hbsw

set_option maxHeartbeats 4000000 in
/-- **C8, counterexample**: the frozen claim quantifies over *every*
source text containing a `b as c` entry, and fails when the rename
target is also exported by another construct in the same text.  For the
two-line source `export \x7b b as c \x7d` / `export const c = 1;`, the
named-export pass contributes `b` but the declaration-export pass
contributes `c`, so `Parse`'s exports list is `["b", "c"]` — it *does*
contain the rename target `c`. -/
theorem c8_rename_target_reported_elsewhere :
    (parser.parseStructure
        "export \x7b b as c \x7d\nexport const c = 1;").exports = ["b", "c"] ∧
    "c" ∈ (parser.parseStructure
        "export \x7b b as c \x7d\nexport const c = 1;").exports := by
  have h : (parser.parseStructure
      "export \x7b b as c \x7d\nexport const c = 1;").exports = ["b", "c"] := rfl
  exact ⟨h, by rw [h]; exact List.mem_cons_of_mem _ (List.mem_singleton.2 rfl)⟩

set_option maxHeartbeats 4000000 in
/-- **C8 (amended)**: the named-export pass itself always keeps the
pre-rename identifier: for arbitrary nonempty word-character
identifiers `bs`, `cs`, the list-entry text `bs ++ " as " ++ cs` is
reduced by `namedEntryName` (the `" as "` handling of `extractExports`)
to the original name `bs`, never to the rename target `cs`; and
end-to-end, for a source text that is exactly `export \x7b b as c \x7d`
(word characters `b ≠ c`), `Parse`'s exports list is `[b]` and does not
contain `c`.  The rename target can still appear in `exports` when
another export construct contributes it independently (see the
counterexample). -/
theorem c8_named_export_pre_rename (b c : Char) (bs cs : List Char)
    (hb : isWordChar b = true) (hc : isWordChar c = true) (hne : ¬(b = c))
    (hbs : bs ≠ []) (hcs : cs ≠ [])
    (hbsw : ∀ x ∈ bs, isWordChar x = true) (hcsw : ∀ x ∈ cs, isWordChar x = true) :
    parser.namedEntryName (bs ++ ' ' :: 'a' :: 's' :: ' ' :: cs) = bs ∧
    (parser.parseStructure (String.mk
        ['e','x','p','o','r','t',' ','\x7b',' ', b, ' ', 'a', 's', ' ', c, ' ', '\x7d'])).exports
      = [String.mk [b]] ∧
    String.mk [c] ∉ (parser.parseStructure (String.mk
        ['e','x','p','o','r','t',' ','\x7b',' ', b, ' ', 'a', 's', ' ', c, ' ', '\x7d'])).exports := by
  refine ⟨namedEntryName_as hbs hcs hbsw hcsw, ?_⟩
  obtain ⟨fb1, fb2, fb3, fb4, fb5⟩ := wordChar_c8_facts hb
  obtain ⟨fc1, fc2, fc3, fc4, fc5⟩ := wordChar_c8_facts hc
  have qb1 : ¬(b = '\x7b') := wordChar_ne hb (by decide)
  have qb2 : ¬('\x7b' = b) := wordChar_ne2 hb (by decide)
  have qb3 : ¬(b = '\x7d') := wordChar_ne hb (by decide)
  have qb4 : ¬('\x7d' = b) := wordChar_ne2 hb (by decide)
  have qc1 : ¬(c = '\x7b') := wordChar_ne hc (by decide)
  have qc2 : ¬('\x7b' = c) := wordChar_ne2 hc (by decide)
  have qc3 : ¬(c = '\x7d') := wordChar_ne hc (by decide)
  have qc4 : ¬('\x7d' = c) := wordChar_ne2 hc (by decide)
  have hmain : (parser.parseStructure (String.mk
      ['e','x','p','o','r','t',' ','\x7b',' ', b, ' ', 'a', 's', ' ', c, ' ', '\x7d'])).exports
      = [String.mk [b]] := by
    simp [parser.parseStructure, parser.removeComments, parser.stripBlockComments,
      parser.findSub, parser.splitOnChar, parser.cutLineComment, parser.joinWith,
      parser.extractExports, parser.exportNamedRegex, parser.exportDeclRegex,
      parser.exportDefaultRegex, findAllCaptures, findAllAux, matchHere, reMatch,
      starAux, grpAux, seqL, lit, List.isPrefixOf, parser.sortStrings, List.insertionSort,
      List.orderedInsert, parser.deduplicate, parser.dedupFrom, parser.trimSpaceGo,
      parser.namedEntryName, List.isEmpty,
      (show isSpaceRE ' ' = true by decide), (show isSpaceRE '\x7b' = false by decide),
      (show notCloseBrace ' ' = true by decide), (show notCloseBrace 'a' = true by decide),
      (show notCloseBrace 's' = true by decide), (show notCloseBrace '\x7d' = false by decide),
      (show parser.isSpaceGo ' ' = true by decide),
      fb1, fb2, fb3, fb4, fb5, fc1, fc2, fc3, fc4, fc5,
      qb1, qb2, qb3, qb4, qc1, qc2, qc3, qc4]
  refine ⟨hmain, ?_⟩
  rw [hmain]
  intro hmem
  have h2 : ([c] : List Char) = [b] :=
    congrArg String.data (List.mem_singleton.1 hmem)
  have h3 : c = b := by simpa using h2
  exact hne h3.symm

/-- Witness for C8 at the concrete identifiers `foo as bar` for the
entry lemma and `b`, `c` for the end-to-end minimal source. -/
theorem c8_named_export_pre_rename_witness :
    parser.namedEntryName (['f','o','o'] ++ ' ' :: 'a' :: 's' :: ' ' :: ['b','a','r']) =
      ['f','o','o'] ∧
    (parser.parseStructure (String.mk
        ['e','x','p','o','r','t',' ','\x7b',' ', 'b', ' ', 'a', 's', ' ', 'c', ' ', '\x7d'])).exports
      = [String.mk ['b']] ∧
    String.mk ['c'] ∉ (parser.parseStructure (String.mk
        ['e','x','p','o','r','t',' ','\x7b',' ', 'b', ' ', 'a', 's', ' ', 'c', ' ', '\x7d'])).exports :=
  c8_named_export_pre_rename 'b' 'c' ['f','o','o'] ['b','a','r']
    (by decide) (by decide) (by decide) (by decide) (by decide) (by decide) (by decide)

/-- **C6**: `Parse` is total — it returns `.ok` (a `nil` Go error) on
every input — and each of the four lists of the result is sorted
ascending in Go's string order and duplicate-free.  (The lists are
plain lists built from empty literals, never Go `nil` slices, which is
why `FileStructure` needs no `Option`.) -/
theorem c6_parse_total_sorted_nodup (source : String) :
    parser.Parse source = Except.ok (parser.parseStructure source) ∧
    ((parser.parseStructure source).imports.Sorted parser.strOrd ∧
      (parser.parseStructure source).imports.Nodup) ∧
    ((parser.parseStructure source).functions.Sorted parser.strOrd ∧
      (parser.parseStructure source).functions.Nodup) ∧
    ((parser.parseStructure source).classes.Sorted parser.strOrd ∧
      (parser.parseStructure source).classes.Nodup) ∧
    ((parser.parseStructure source).exports.Sorted parser.strOrd ∧
      (parser.parseStructure source).exports.Nodup) := by
  refine ⟨rfl, ?_, ?_, ?_, ?_⟩ <;>
    exact parser.sortDedup_sorted_nodup _

end RunEcho
